import Mathlib

/-!
# cpu_volt_cap: stress-accounting engine of the voltage-capping daemon

Shallow embedding of `src/cpu_volt_cap/cpu_volt_cap.c`.

Conventions of the embedding.

* `float` values (burn rates, points) are rationals: arithmetic is exact.
  The conversion `(float)volt` of `get_yindex` is exact too in `get_yindex`,
  as it is for `|volt| <= 2^24`; `get_yindex_float` rounds it to binary32.
* `int`, `long` and `time_t` values are integers, taken without wrap-around.
* `unsigned int` values are naturals below `2 ^ 32`; the only operations the
  source applies to them (`^`, `>>`, `&`, `~`) never leave that range.
* A read outside an array is undefined behaviour in C; operations that index
  an array return `Option`, with `none` for such a read.
* The tables returned by `get_burnout_table` and `get_temperature_list`
  (declared in `cpu_volt_cap.h`, defined elsewhere) are parameters.
* The kernel control files are an append-only log of `sysfs_write` calls.
-/

set_option maxRecDepth 8000

namespace VoltCap

/-! ## Data model (`cpu_volt_cap.h` and the file-scope variables) -/

/-- One line of the rail statistics: `struct rail_stats`. -/
structure rail_stats where
  milli_volts : Int
  time_10msec : Int
deriving DecidableEq, Repr

/-- A thermal event: `struct temperatures_stats`. -/
structure temperatures_stats where
  current_temp : Int
  is_rise : Int
deriving DecidableEq, Repr

/-- Wall-clock or monotonic time: `struct timespec`. -/
structure timespec where
  tv_sec : Int
  tv_nsec : Int
deriving DecidableEq, Repr

/-- The persisted record: `struct saved_data`. -/
structure saved_data where
  balance_points : ℚ
  saved_time : timespec
  edid : Nat
deriving DecidableEq

/-- The static tables: `btable` (with `btable_size` its length) and
`temperatures` (with `temp_list_size` its length). `init_function` stores the
length of `temperatures` in both `temp_list_size` and `vc.temp_steps`, and
neither is written again. -/
structure tables where
  btable : List ℚ
  temperatures : List Int

/-- The number of cells of the burn table: `btable_size`. -/
def tables.btable_size (tb : tables) : Nat := tb.btable.length

/-- The number of breakpoints: `temp_list_size`, equal to `vc.temp_steps`. -/
def tables.temp_list_size (tb : tables) : Nat := tb.temperatures.length

/-- The number of rows: `vc.volt_steps = btable_size / (vc.temp_steps + 1)`. -/
def tables.volt_steps (tb : tables) : Nat := tb.btable_size / (tb.temp_list_size + 1)

/-- The accounting state: the mutable fields of `vc`, and the log of the
`sysfs_write` calls made so far (path, text), oldest first. -/
structure vc_state where
  saved_rs : List rail_stats
  cur_temp_index : Int
  session_points : ℚ
  writes : List (String × String)
deriving DecidableEq

def SAFE_USER_POINT_LIMIT : ℚ := 100

def VOLT_FILE : String := "/sys/kernel/tegra_cpu_volt_cap/volt"

def CAPPING_ENABLE_FILE : String := "/sys/kernel/tegra_cpu_volt_cap/capping_state"

def DAILY_POINTS_UPDATE : ℚ := 100

/-! ## `get_crcb` -/

/-- The value of `*cp` after the usual arithmetic conversions to
`unsigned int`. Plain `char` is unsigned under the ARM EABI the daemon is
built for (`char_signed = false`): the byte is zero-extended. Where plain
`char` is signed, a byte of 128 or more is sign-extended. -/
def char_to_uint (char_signed : Bool) (c : Nat) : Nat :=
  if char_signed && decide (128 ≤ c % 256) then c % 256 + (4294967296 - 256) else c % 256

/-- One pass of the inner `for` loop of `get_crcb`:
`mask = (crc & 1) ? 0xEDB88320 : 0; crc = (crc >> 1) ^ mask`. -/
def crc_shift (crc : Nat) : Nat :=
  let mask := if crc &&& 1 ≠ 0 then 0xEDB88320 else 0
  (crc >>> 1) ^^^ mask

/-- The inner `for (j = 7; j >= 0; j--)` loop, `n` passes left. -/
def crc_shifts : Nat → Nat → Nat
  | 0, crc => crc
  | n + 1, crc => crc_shifts n (crc_shift crc)

/-- The body of the `while (size--)` loop of `get_crcb` for one byte. -/
def crc_byte (char_signed : Bool) (crc c : Nat) : Nat :=
  crc_shifts 8 (crc ^^^ char_to_uint char_signed c)

/-- The `while (size--)` loop of `get_crcb` over the bytes at `cp`. -/
def crc_loop (char_signed : Bool) : Nat → List Nat → Nat
  | crc, [] => crc
  | crc, c :: cp => crc_loop char_signed (crc_byte char_signed crc c) cp

/-- The function `get_crcb(cp, size)`, `cp` being the `size` bytes read;
`~crc` on 32 bits is the exclusive or with `0xFFFFFFFF`. -/
def get_crcb (char_signed : Bool) (cp : List Nat) : Nat :=
  crc_loop char_signed 0xFFFFFFFF cp ^^^ 0xFFFFFFFF

/-! ## `get_xindex` and `get_yindex` -/

/-- The `while (i < temps)` loop of `get_xindex` over `temperatures[i..]`:
`some i` when the loop returns `i`, `none` when it runs to `i = temps`. -/
def get_xindex_loop (temp : Int) : List Int → Nat → Option Nat
  | [], _ => none
  | t :: rest, i => if t ≥ temp then some i else get_xindex_loop temp rest (i + 1)

/-- The function `get_xindex(temp)`. After the loop `i = temps`, and the
source reads `temperatures[i-1]`, the last breakpoint: outside the array when
the list is empty. -/
def get_xindex (tb : tables) (temp : Int) : Option Int :=
  match get_xindex_loop temp tb.temperatures 0 with
  | some i => some (i : Int)
  | none =>
    match tb.temperatures.getLast? with
    | none => none
    | some last => some (if temp > last then (tb.temp_list_size : Int) - 1 else -1)

/-- The `while (j < i)` loop of `get_yindex`, from the state `(j, count)`, for
`fvolt` the value of `(float)volt`; `fuel` bounds the number of passes. -/
def get_yindex_loop (tb : tables) (fvolt : ℚ) : Nat → Nat → Nat → Int
  | 0, _, _ => -1
  | fuel + 1, j, count =>
    match tb.btable[j]? with
    | none => -1
    | some cell =>
      if fvolt = cell then (count : Int)
      else get_yindex_loop tb fvolt fuel ((tb.temp_list_size + 1) * (count + 1)) (count + 1)

/-- The function `get_yindex(volt)` with the conversion `(float)volt` taken as
exact, as it is for `|volt| <= 2^24` and as the rest of the arithmetic is.
Each pass raises `j` by at least one, so `btable_size` passes are enough to
reach `j >= btable_size`. -/
def get_yindex (tb : tables) (volt : Int) : Int :=
  get_yindex_loop tb (volt : ℚ) (tb.btable_size + 1) 0 0

/-- The number of low bits of the magnitude `m` that do not fit the 24-bit
significand of a binary32 number; `fuel` bounds the number of halvings. -/
def float_shift : Nat → Nat → Nat
  | 0, _ => 0
  | fuel + 1, m => if m < 16777216 then 0 else 1 + float_shift fuel (m / 2)

/-- The conversion `(float)volt` of an `int` to binary32: the magnitude is
cut to 24 significant bits, rounded to nearest with ties to even. -/
def int_to_float (volt : Int) : ℚ :=
  let m := volt.natAbs
  let e := float_shift m m
  let q := m / 2 ^ e
  let r := m % 2 ^ e
  let q1 := if 2 * r > 2 ^ e ∨ (2 * r = 2 ^ e ∧ q % 2 = 1) then q + 1 else q
  let mag : ℚ := ((q1 * 2 ^ e : Nat) : ℚ)
  if volt < 0 then -mag else mag

/-- The function `get_yindex(volt)` with the conversion `(float)volt` of its
comparison `(float)volt == btable[j]` rounded to binary32. -/
def get_yindex_float (tb : tables) (volt : Int) : Int :=
  get_yindex_loop tb (int_to_float volt) (tb.btable_size + 1) 0 0

/-! ## `update_state` -/

/-- The call `sysfs_write(path, s)`, recorded in the log. Whether the kernel
file accepts the text does not change the accounting state. -/
def sysfs_write (s : vc_state) (path text : String) : vc_state :=
  { s with writes := s.writes ++ [(path, text)] }

/-- The read `a[i]` of a C array held as a list: `none` outside `0..len-1`. -/
def read_at {α : Type} (a : List α) (i : Int) : Option α :=
  if 0 ≤ i then a[i.toNat]? else none

/-- One pass of the `while (i != rs_num)` loop of `update_state` (the two
loops of the source are the same text), for the entry `rs` and the column
`tcol` saved before the loop. -/
def rail_pass (tb : tables) (tcol : Int) (s : vc_state) (rs : rail_stats) : Option vc_state :=
  let vrow := get_yindex tb rs.milli_volts
  if vrow ≥ 0 then
    match read_at s.saved_rs vrow, read_at tb.btable (vrow * (tb.temp_list_size + 1) + tcol + 1) with
    | some saved, some rate =>
      let time_diff : Int := rs.time_10msec - saved.time_10msec
      some { s with
        saved_rs := s.saved_rs.set vrow.toNat { saved with time_10msec := rs.time_10msec }
        session_points := s.session_points - (rate * (time_diff : ℚ)) / 100 }
    | _, _ => none
  else some s

/-- The `while (i != rs_num)` loop of `update_state` over the `rs_num`
entries at `rs`. -/
def rail_loop (tb : tables) (tcol : Int) : vc_state → List rail_stats → Option vc_state
  | s, [] => some s
  | s, r :: rs =>
    match rail_pass tb tcol s r with
    | none => none
    | some s1 => rail_loop tb tcol s1 rs

/-- The end of the thermal branch of `update_state`:
`i = get_xindex(ts->current_temp); if (!ts->is_rise) i = (i == 0 ? 0 : i - 1);
if (i >= 0) vc.cur_temp_index = i;`. -/
def thermal_update (tb : tables) (s : vc_state) (ts : temperatures_stats) : Option vc_state :=
  match get_xindex tb ts.current_temp with
  | none => none
  | some i0 =>
    let i : Int := if ts.is_rise = 0 then (if i0 = 0 then 0 else i0 - 1) else i0
    some (if i ≥ 0 then { s with cur_temp_index := i } else s)

/-- The tail of `update_state`: the comparison with `SAFE_USER_POINT_LIMIT`
and the writes to the kernel files. -/
def cap_writes (s : vc_state) : vc_state :=
  if s.session_points ≤ SAFE_USER_POINT_LIMIT then
    sysfs_write (sysfs_write s VOLT_FILE "1300") CAPPING_ENABLE_FILE "1"
  else
    sysfs_write s CAPPING_ENABLE_FILE "0"

/-- The three branches of `update_state`, before the tail. A null `rs` or `ts`
is `none`; `rs` holds the `rs_num` entries. -/
def update_branch (tb : tables) (s : vc_state) (rs : Option (List rail_stats))
    (ts : Option temperatures_stats) (add_points : ℚ) : Option vc_state :=
  match rs, ts with
  | some rs, some ts =>
    match rail_loop tb s.cur_temp_index s rs with
    | none => none
    | some s1 => thermal_update tb s1 ts
  | some rs, none => rail_loop tb s.cur_temp_index s rs
  | none, _ =>
    if add_points ≠ 0 then some { s with session_points := s.session_points + add_points }
    else some s

/-- The function `update_state(rs, rs_num, ts, add_points, balance_points)`.
The value stored through a non-null `balance_points` is the `session_points`
of the state returned. -/
def update_state (tb : tables) (s : vc_state) (rs : Option (List rail_stats))
    (ts : Option temperatures_stats) (add_points : ℚ) : Option vc_state :=
  match update_branch tb s rs ts add_points with
  | none => none
  | some s1 => some (cap_writes s1)

/-! ## Persistence: `diff_time`, `save_to_file`, `init_function` -/

/-- The function `diff_time(start, finish, diff)`: the value left in `*diff`. -/
def diff_time (start finish : timespec) : timespec :=
  if finish.tv_nsec - start.tv_nsec < 0 then
    { tv_sec := finish.tv_sec - start.tv_sec - 1
      tv_nsec := 1000000000 + finish.tv_nsec - start.tv_nsec }
  else
    { tv_sec := finish.tv_sec - start.tv_sec
      tv_nsec := finish.tv_nsec - start.tv_nsec }

/-- The four bytes of an `unsigned int` in memory, least significant first,
as `write(fd, &crc, sizeof(unsigned int))` stores them. -/
def uint_bytes (x : Nat) : List Nat :=
  [x % 256, x / 256 % 256, x / 65536 % 256, x / 16777216 % 256]

/-- The `unsigned int` that `read(fd, &read_crc, sizeof(unsigned int))` leaves
in `read_crc` when it reads the four bytes `bs`. -/
def uint_of_bytes (bs : List Nat) : Nat :=
  bs.getD 0 0 + 256 * bs.getD 1 0 + 65536 * bs.getD 2 0 + 16777216 * bs.getD 3 0

/-- The function `save_to_file(points_to_save)`: the record `sd` it leaves and
the bytes it writes at the start of the data file. `encode` is the memory
image of a `struct saved_data`, of `sizeof(sd)` bytes, and `now` is the
reading of `CLOCK_REALTIME`. -/
def save_to_file (char_signed : Bool) (encode : saved_data → List Nat) (sd : saved_data)
    (now : timespec) (points_to_save : ℚ) : saved_data × List Nat :=
  let sd1 : saved_data := { sd with saved_time := now, balance_points := points_to_save }
  let crc := get_crcb char_signed (encode sd1)
  (sd1, encode sd1 ++ uint_bytes crc)

/-- The part of `init_function` up to the label `exit`: the record read and
`valid_file`. `file` is the content of the data file, `none` when the first
`open` fails; a `read` returns the bytes left, up to the count asked.
The result is `none` when `read_crc` is compared after a read of one to three
bytes, which leaves it partly uninitialised. -/
def read_saved (char_signed : Bool) (sizeof_sd : Nat) (decode : List Nat → saved_data)
    (file : Option (List Nat)) : Option (saved_data × Bool) :=
  match file with
  | none => some (decode [], false)
  | some bytes =>
    let sd_image := bytes.take sizeof_sd
    if sd_image.length < sizeof_sd then some (decode sd_image, false)
    else
      let calc_crc := get_crcb char_signed sd_image
      let crc_image := (bytes.drop sizeof_sd).take 4
      if crc_image.length = 0 then some (decode sd_image, false)
      else if crc_image.length < 4 then none
      else some (decode sd_image, decide (uint_of_bytes crc_image = calc_crc))

/-- The function `init_function`, from the label `exit` on: the value it
leaves in `vc.session_points`. -/
def init_points (sd : saved_data) (valid_file : Bool) (current_time : timespec) : ℚ :=
  if valid_file then
    if current_time.tv_sec ≤ sd.saved_time.tv_sec then sd.balance_points
    else
      let diff := diff_time current_time sd.saved_time
      (diff.tv_sec : ℚ) * (DAILY_POINTS_UPDATE / ((24 * 60 * 60 : Nat) : ℚ)) + sd.balance_points
  else 2100

/-- The function `init_function`: the value it leaves in `vc.session_points`.
`decode` rebuilds a `struct saved_data` from its `sizeof_sd` bytes in memory,
and `current_time` is the reading of `CLOCK_REALTIME`. -/
def init_function (char_signed : Bool) (sizeof_sd : Nat) (decode : List Nat → saved_data)
    (file : Option (List Nat)) (current_time : timespec) : Option ℚ :=
  match read_saved char_signed sizeof_sd decode file with
  | none => none
  | some (sd, valid_file) => some (init_points sd valid_file current_time)

/-! ## `points_record` -/

/-- The function `add_nsec(ts, ns)`: the value left in `*ts`. -/
def add_nsec (ts : timespec) (ns : Int) : timespec :=
  if ts.tv_nsec + ns ≥ 1000000000 then
    { tv_sec := ts.tv_sec + 1, tv_nsec := ts.tv_nsec + ns - 1000000000 }
  else
    { tv_sec := ts.tv_sec, tv_nsec := ts.tv_nsec + ns }

/-- The constant `points_per_sec = DAILY_POINTS_UPDATE/((float)(24*60*60))`
of `points_record`. -/
def points_per_sec : ℚ := DAILY_POINTS_UPDATE / ((24 * 60 * 60 : Nat) : ℚ)

/-- The credit `points_to_add = diff.tv_sec * points_per_sec` of
`points_record`, for `diff.tv_sec = seconds`. -/
def points_to_add (seconds : Int) : ℚ := (seconds : ℚ) * points_per_sec

/-- One pass of the `while(1)` loop of `points_record`, up to its call
`update_state(NULL, 0, NULL, points_to_add, &points_to_save)`: the state the
call leaves and the new `saved_ns`. `start` and `finish` are the two readings
of `CLOCK_MONOTONIC`. -/
def points_record_pass (tb : tables) (s : vc_state) (saved_ns : Int) (start finish : timespec) :
    Option vc_state × Int :=
  let diff := add_nsec (diff_time start finish) saved_ns
  (update_state tb s none none (points_to_add diff.tv_sec), diff.tv_nsec)

/-! ## Reference definitions used to state the properties -/

/-- The bytes `bs` with bit `k` of byte `i` flipped. -/
def flip_bit : List Nat → Nat → Nat → List Nat
  | [], _, _ => []
  | b :: bs, 0, k => (b ^^^ 2 ^ k) :: bs
  | b :: bs, i + 1, k => b :: flip_bit bs i k

/-- One shift of the bit-serial CRC-32: shift right, and XOR the polynomial
`0xEDB88320` in when the bit shifted out is 1. -/
def crc32_step (x : Nat) : Nat :=
  if x % 2 = 1 then (x / 2) ^^^ 0xEDB88320 else x / 2

/-- The running value after a byte: the byte is XORed into the low byte of
the running value only, which is then shifted eight times. -/
def crc32_feed (x b : Nat) : Nat :=
  crc32_step^[8] (x / 256 * 256 + (x % 256 ^^^ b % 256))

/-- The standard (IEEE, reflected) CRC-32 of a byte sequence: initial value
`0xFFFFFFFF`, final complement on 32 bits. -/
def crc32_ieee (bs : List Nat) : Nat :=
  0xFFFFFFFF - bs.foldl crc32_feed 0xFFFFFFFF

/-- The sizes `init_function` sets up when the table is a whole number of
rows: `saved_rs` has one entry per row of `btable`. -/
def sizes_ok (tb : tables) (s : vc_state) : Prop :=
  tb.btable.length = s.saved_rs.length * (tb.temp_list_size + 1)

/-- A temperature column inside the table: `0 <= tcol <= T - 1`. -/
def col_ok (tb : tables) (tcol : Int) : Prop :=
  0 ≤ tcol ∧ tcol < (tb.temp_list_size : Int)

/-- The cumulative times a list of entries reports for row `v`, in order. -/
def bin_times (tb : tables) (v : Nat) (rs : List rail_stats) : List Int :=
  (rs.filter (fun r => decide (get_yindex tb r.milli_volts = (v : Int)))).map
    rail_stats.time_10msec

/-- The last time of a list of reported times, or `t0` when the list is
empty. -/
def last_time (t0 : Int) : List Int → Int
  | [] => t0
  | t :: ts => last_time t ts

/-- The points taken off the balance by the passes for row `v` along the
`while` loop of `update_state` over `rs`, started in `s`. -/
def bin_debit (tb : tables) (tcol : Int) (v : Nat) : vc_state → List rail_stats → ℚ
  | _, [] => 0
  | s, r :: rs =>
    match rail_pass tb tcol s r with
    | none => 0
    | some s1 =>
      (if get_yindex tb r.milli_volts = (v : Int) then s.session_points - s1.session_points
        else 0) + bin_debit tb tcol v s1 rs

/-- A sequence of rail-only calls `update_state(rs, rs_num, NULL, add_points,
NULL)`, one per snapshot. -/
def rail_updates (tb : tables) (add_points : ℚ) : vc_state → List (List rail_stats) → Option vc_state
  | s, [] => some s
  | s, snap :: rest =>
    match update_state tb s (some snap) none add_points with
    | none => none
    | some s1 => rail_updates tb add_points s1 rest

/-- The points taken off the balance for row `v` over a sequence of
rail-only calls. -/
def bin_debit_updates (tb : tables) (add_points : ℚ) (v : Nat) :
    vc_state → List (List rail_stats) → ℚ
  | _, [] => 0
  | s, snap :: rest =>
    match update_state tb s (some snap) none add_points with
    | none => 0
    | some s1 =>
      bin_debit tb s.cur_temp_index v s snap + bin_debit_updates tb add_points v s1 rest

/-- The array reads of one pass of the `while (i != rs_num)` loop of
`update_state`: for `vrow = get_yindex(rs->milli_volts) >= 0`, the index
`vrow` into `vc.saved_rs` and the index `vrow * (vc.temp_steps+1) + tcol + 1`
into `btable`; no read for a negative `vrow`. -/
def pass_accesses (tb : tables) (tcol : Int) (rs : rail_stats) : Option (Int × Int) :=
  let vrow := get_yindex tb rs.milli_volts
  if vrow ≥ 0 then some (vrow, vrow * (tb.temp_list_size + 1) + tcol + 1) else none

/-- The array reads of the whole loop over a snapshot, in order. -/
def loop_accesses (tb : tables) (tcol : Int) (rs : List rail_stats) : List (Int × Int) :=
  rs.filterMap (pass_accesses tb tcol)

/-! ## The scenarios of the specification -/

/-- The scenario tables of the specification: `T = 2`, breakpoints
`[40, 80]`, rows labelled 900 and 1200. -/
def scenario_tables : tables :=
  { btable := [900, 1, 2, 1200, 4, 8], temperatures := [40, 80] }

/-- The state scenario S1 starts in: balance 500, `last_seen` all 0,
`cur_temp_index = 0`, nothing written yet. -/
def scenario_state : vc_state :=
  { saved_rs := [⟨0, 0⟩, ⟨0, 0⟩], cur_temp_index := 0, session_points := 500, writes := [] }

/-- A state whose counter for row 0 stands at 1000. -/
def rebased_state : vc_state :=
  { saved_rs := [⟨0, 1000⟩, ⟨0, 0⟩], cur_temp_index := 0, session_points := 500, writes := [] }

/-- A table of one row whose label is `2^24 = 16777216`, with `T = 2`. -/
def wide_label_tables : tables :=
  { btable := [16777216, 1, 2], temperatures := [40, 80] }

/-- Scenario S3 before the credit: balance 50. -/
def capped_state : vc_state :=
  { saved_rs := [⟨0, 0⟩, ⟨0, 0⟩], cur_temp_index := 0, session_points := 50, writes := [] }

/-- The value of the IEEE 754 single-precision number with bit pattern `w`,
for a finite number (exponent field below 255). -/
def float_of_bits (w : Nat) : ℚ :=
  let sign := w / 2147483648 % 2
  let e := w / 8388608 % 256
  let m := w % 8388608
  let mag : ℚ :=
    if e = 0 then (m : ℚ) / 2 ^ 149 else ((8388608 + m : Nat) : ℚ) * 2 ^ e / 2 ^ 150
  if sign = 1 then -mag else mag

/-- The `long` held in four bytes, least significant first, in two's
complement. -/
def long_of_bytes (bs : List Nat) : Int :=
  if uint_of_bytes bs < 2147483648 then (uint_of_bytes bs : Int)
  else (uint_of_bytes bs : Int) - 4294967296

/-- A memory layout of `struct saved_data`, that of the 32-bit ARM EABI:
16 bytes, the `float` at offset 0, `tv_sec` at 4, `tv_nsec` at 8 and `edid`
at 12, all little-endian. -/
def arm_decode (bs : List Nat) : saved_data :=
  { balance_points := float_of_bits (uint_of_bytes bs)
    saved_time := { tv_sec := long_of_bytes (bs.drop 4), tv_nsec := long_of_bytes (bs.drop 8) }
    edid := uint_of_bytes (bs.drop 12) }

/-- A saved record in that layout: balance `200.0f` (bits `0x43480000`),
saved at 1000 s and 0 ns, `edid` 0. -/
def scenario_record : List Nat :=
  [0, 0, 72, 67, 232, 3, 0, 0, 0, 0, 0, 0, 0, 0, 0, 0]

/-- The data file `save_to_file` leaves for that record. -/
def scenario_file : List Nat :=
  scenario_record ++ uint_bytes (get_crcb false scenario_record)

/-! ## Shared facts about the lookups -/

theorem get_yindex_loop_spec (tb : tables) (fvolt : ℚ) (fuel count : Nat)
    (hfuel : tb.btable.length < fuel + (tb.temp_list_size + 1) * count) :
    (get_yindex_loop tb fvolt fuel ((tb.temp_list_size + 1) * count) count = -1 ∧
        ∀ u : Nat, count ≤ u → tb.btable[(tb.temp_list_size + 1) * u]? ≠ some fvolt) ∨
      ∃ v : Nat, count ≤ v ∧
        get_yindex_loop tb fvolt fuel ((tb.temp_list_size + 1) * count) count = (v : Int) ∧
        tb.btable[(tb.temp_list_size + 1) * v]? = some fvolt ∧
        ∀ u : Nat, count ≤ u → u < v → tb.btable[(tb.temp_list_size + 1) * u]? ≠ some fvolt := by
  induction fuel generalizing count with
  | zero =>
    left
    refine ⟨rfl, fun u hu => ?_⟩
    have hle : (tb.temp_list_size + 1) * count ≤ (tb.temp_list_size + 1) * u :=
      Nat.mul_le_mul_left _ hu
    have hnone : tb.btable[(tb.temp_list_size + 1) * u]? = none :=
      List.getElem?_eq_none (by omega)
    simp [hnone]
  | succ fuel ih =>
    have hstep : (tb.temp_list_size + 1) * (count + 1)
        = (tb.temp_list_size + 1) * count + (tb.temp_list_size + 1) := by ring
    have beyond : ∀ u, count + 1 ≤ u →
        (tb.temp_list_size + 1) * (count + 1) ≤ (tb.temp_list_size + 1) * u :=
      fun u hu => Nat.mul_le_mul_left _ hu
    cases hcell : tb.btable[(tb.temp_list_size + 1) * count]? with
    | none =>
      left
      refine ⟨by simp [get_yindex_loop, hcell], fun u hu => ?_⟩
      have hlen : tb.btable.length ≤ (tb.temp_list_size + 1) * count :=
        List.getElem?_eq_none_iff.mp hcell
      have hle : (tb.temp_list_size + 1) * count ≤ (tb.temp_list_size + 1) * u :=
        Nat.mul_le_mul_left _ hu
      have hnone : tb.btable[(tb.temp_list_size + 1) * u]? = none :=
        List.getElem?_eq_none (by omega)
      simp [hnone]
    | some cell =>
      by_cases heq : fvolt = cell
      · right
        refine ⟨count, le_refl _, by simp [get_yindex_loop, hcell, heq], by simp [hcell, heq], ?_⟩
        intro u h1 h2
        omega
      · have hrec : get_yindex_loop tb fvolt (fuel + 1) ((tb.temp_list_size + 1) * count) count
            = get_yindex_loop tb fvolt fuel ((tb.temp_list_size + 1) * (count + 1)) (count + 1) := by
          simp [get_yindex_loop, hcell, heq]
        have hhere : tb.btable[(tb.temp_list_size + 1) * count]? ≠ some fvolt := by
          rw [hcell]
          intro h
          exact heq (Option.some.inj h).symm
        rcases ih (count + 1) (by omega) with ⟨h1, h2⟩ | ⟨v, hv, h1, h2, h3⟩
        · left
          refine ⟨by rw [hrec]; exact h1, fun u hu => ?_⟩
          rcases Nat.eq_or_lt_of_le hu with h | h
          · subst h; exact hhere
          · exact h2 u h
        · right
          refine ⟨v, by omega, by rw [hrec]; exact h1, h2, fun u hu huv => ?_⟩
          rcases Nat.eq_or_lt_of_le hu with h | h
          · subst h; exact hhere
          · exact h3 u h huv

/-- The result of `get_yindex` is -1 when no row label equals `volt`, and
otherwise the first row whose label equals `volt`; the rows are the `v` with
`(temp_list_size + 1) * v` inside the table. -/
theorem get_yindex_spec (tb : tables) (volt : Int) :
    (get_yindex tb volt = -1 ∧
        ∀ u : Nat, tb.btable[(tb.temp_list_size + 1) * u]? ≠ some (volt : ℚ)) ∨
      ∃ v : Nat, get_yindex tb volt = (v : Int) ∧
        tb.btable[(tb.temp_list_size + 1) * v]? = some (volt : ℚ) ∧
        ∀ u : Nat, u < v → tb.btable[(tb.temp_list_size + 1) * u]? ≠ some (volt : ℚ) := by
  have h := get_yindex_loop_spec tb (volt : ℚ) (tb.btable_size + 1) 0
    (by simp [tables.btable_size])
  simp only [Nat.mul_zero] at h
  rcases h with ⟨h1, h2⟩ | ⟨v, _, h1, h2, h3⟩
  · exact Or.inl ⟨h1, fun u => h2 u (Nat.zero_le _)⟩
  · exact Or.inr ⟨v, h1, h2, fun u hu => h3 u (Nat.zero_le _) hu⟩

/-- A row found by `get_yindex` starts inside the table. -/
theorem get_yindex_row_lt (tb : tables) (volt : Int) (v : Nat)
    (h : get_yindex tb volt = (v : Int)) :
    (tb.temp_list_size + 1) * v < tb.btable.length := by
  rcases get_yindex_spec tb volt with ⟨h1, _⟩ | ⟨w, h1, h2, _⟩
  · rw [h1] at h; omega
  · have hw : w = v := by rw [h1] at h; exact_mod_cast h
    subst hw
    by_contra hlt
    rw [List.getElem?_eq_none (by omega)] at h2
    exact absurd h2 (by simp)

/-- The result of `get_yindex` is -1 or a row number. -/
theorem get_yindex_cases (tb : tables) (volt : Int) :
    get_yindex tb volt = -1 ∨ ∃ v : Nat, get_yindex tb volt = (v : Int) := by
  rcases get_yindex_spec tb volt with ⟨h1, _⟩ | ⟨w, h1, _, _⟩
  · exact Or.inl h1
  · exact Or.inr ⟨w, h1⟩

theorem get_xindex_loop_some (temp : Int) (l : List Int) (i0 r : Nat)
    (h : get_xindex_loop temp l i0 = some r) :
    ∃ k : Nat, r = i0 + k ∧ (∃ t, l[k]? = some t ∧ t ≥ temp) ∧
      ∀ (m : Nat) (t : Int), m < k → l[m]? = some t → t < temp := by
  induction l generalizing i0 with
  | nil => simp [get_xindex_loop] at h
  | cons a rest ih =>
    by_cases ha : a ≥ temp
    · have hr : i0 = r := by simpa [get_xindex_loop, ha] using h
      exact ⟨0, by omega, ⟨a, by simp, ha⟩, fun m t hm => absurd hm (Nat.not_lt_zero m)⟩
    · have h1 : get_xindex_loop temp rest (i0 + 1) = some r := by
        simpa [get_xindex_loop, ha] using h
      obtain ⟨k, hk, ⟨t, ht, hge⟩, hmin⟩ := ih (i0 + 1) h1
      refine ⟨k + 1, by omega, ⟨t, by simpa using ht, hge⟩, fun m u hm hu => ?_⟩
      cases m with
      | zero =>
        have : a = u := by simpa using hu
        omega
      | succ m => exact hmin m u (by omega) (by simpa using hu)

theorem get_xindex_loop_none (temp : Int) (l : List Int) (i0 : Nat)
    (h : get_xindex_loop temp l i0 = none) : ∀ t ∈ l, t < temp := by
  induction l generalizing i0 with
  | nil => simp
  | cons a rest ih =>
    by_cases ha : a ≥ temp
    · simp [get_xindex_loop, ha] at h
    · have h1 : get_xindex_loop temp rest (i0 + 1) = none := by
        simpa [get_xindex_loop, ha] using h
      intro t ht
      rcases List.mem_cons.mp ht with rfl | hrest
      · omega
      · exact ih (i0 + 1) h1 t hrest

/-- With at least one breakpoint `get_xindex` returns a bin `0..T-1`: the
first breakpoint at or above `temp`, or the last bin when there is none. -/
theorem get_xindex_spec (tb : tables) (temp : Int) (hne : tb.temperatures ≠ []) :
    ∃ i : Nat, get_xindex tb temp = some (i : Int) ∧ i < tb.temp_list_size ∧
      ((∃ (k : Nat) (t : Int), tb.temperatures[k]? = some t ∧ t ≥ temp) →
        (∃ t, tb.temperatures[i]? = some t ∧ t ≥ temp) ∧
          ∀ (k : Nat) (t : Int), k < i → tb.temperatures[k]? = some t → t < temp) ∧
      ((∀ t ∈ tb.temperatures, t < temp) → i = tb.temp_list_size - 1) := by
  have hlen : 0 < tb.temperatures.length := List.length_pos.mpr hne
  cases hloop : get_xindex_loop temp tb.temperatures 0 with
  | some r =>
    obtain ⟨k, hk, ⟨t, ht, hge⟩, hmin⟩ := get_xindex_loop_some temp tb.temperatures 0 r hloop
    have hkr : k = r := by omega
    subst hkr
    have hlt : k < tb.temperatures.length := by
      by_contra hcon
      rw [List.getElem?_eq_none (by omega)] at ht
      exact absurd ht (by simp)
    refine ⟨k, by simp [get_xindex, hloop], hlt, fun _ => ⟨⟨t, ht, hge⟩, hmin⟩, fun hall => ?_⟩
    have hmem : t ∈ tb.temperatures := List.getElem?_mem ht
    have := hall t hmem
    omega
  | none =>
    have hall := get_xindex_loop_none temp tb.temperatures 0 hloop
    obtain ⟨last, hlast⟩ : ∃ last, tb.temperatures.getLast? = some last := by
      cases hl : tb.temperatures.getLast? with
      | none => exact absurd (List.getLast?_eq_none_iff.mp hl) hne
      | some last => exact ⟨last, rfl⟩
    have hmem : last ∈ tb.temperatures := List.mem_of_getLast?_eq_some hlast
    have hgt : temp > last := hall last hmem
    refine ⟨tb.temp_list_size - 1, ?_, by simp only [tables.temp_list_size]; omega, ?_,
      fun _ => rfl⟩
    · simp only [get_xindex, hloop, hlast, hgt, if_true, tables.temp_list_size]
      congr 1
      omega
    · rintro ⟨k, t, ht, hge⟩
      have := hall t (List.getElem?_mem ht)
      omega

/-! ## Shared facts about the rail loop -/

theorem read_at_natCast {α : Type} (a : List α) (n : Nat) : read_at a (n : Int) = a[n]? := by
  simp [read_at]

theorem read_at_some_nonneg {α : Type} (a : List α) (i : Int) (x : α)
    (h : read_at a i = some x) : 0 ≤ i ∧ i.toNat < a.length := by
  unfold read_at at h
  by_cases hi : 0 ≤ i
  · rw [if_pos hi] at h
    exact ⟨hi, (List.getElem?_eq_some.mp h).1⟩
  · rw [if_neg hi] at h
    exact absurd h (by simp)

/-- A pass for an entry whose voltage labels row `v`, when the two array
reads are inside their arrays. -/
theorem rail_pass_label (tb : tables) (tcol : Int) (s : vc_state) (rs : rail_stats)
    (v : Nat) (saved : rail_stats) (rate : ℚ)
    (hv : get_yindex tb rs.milli_volts = (v : Int))
    (hs : s.saved_rs[v]? = some saved)
    (hb : read_at tb.btable ((v : Int) * ((tb.temp_list_size : Int) + 1) + tcol + 1) = some rate) :
    rail_pass tb tcol s rs = some { s with
      saved_rs := s.saved_rs.set v { saved with time_10msec := rs.time_10msec }
      session_points :=
        s.session_points - (rate * ((rs.time_10msec - saved.time_10msec : Int) : ℚ)) / 100 } := by
  have hge : (v : Int) ≥ 0 := Int.natCast_nonneg v
  simp only [rail_pass, hv, hge, if_true, read_at_natCast, hs, hb, Int.toNat_ofNat]

/-- A pass for an entry whose voltage labels no row. -/
theorem rail_pass_not_label (tb : tables) (tcol : Int) (s : vc_state) (rs : rail_stats)
    (hv : get_yindex tb rs.milli_volts = -1) : rail_pass tb tcol s rs = some s := by
  simp [rail_pass, hv]

/-- A pass leaves `cur_temp_index`, the write log and the length of
`saved_rs` as they were. -/
theorem rail_pass_keeps (tb : tables) (tcol : Int) (s s1 : vc_state) (rs : rail_stats)
    (h : rail_pass tb tcol s rs = some s1) :
    s1.cur_temp_index = s.cur_temp_index ∧ s1.writes = s.writes ∧
      s1.saved_rs.length = s.saved_rs.length := by
  unfold rail_pass at h
  simp only at h
  split at h
  · split at h
    · cases h; simp
    · exact absurd h (by simp)
  · cases h; simp

theorem rail_loop_keeps (tb : tables) (tcol : Int) (s s1 : vc_state) (rs : List rail_stats)
    (h : rail_loop tb tcol s rs = some s1) :
    s1.cur_temp_index = s.cur_temp_index ∧ s1.writes = s.writes ∧
      s1.saved_rs.length = s.saved_rs.length := by
  induction rs generalizing s with
  | nil =>
    simp only [rail_loop, Option.some.injEq] at h
    subst h
    exact ⟨rfl, rfl, rfl⟩
  | cons r rest ih =>
    cases hp : rail_pass tb tcol s r with
    | none => simp [rail_loop, hp] at h
    | some s2 =>
      simp only [rail_loop, hp] at h
      obtain ⟨h1, h2, h3⟩ := rail_pass_keeps tb tcol s s2 r hp
      obtain ⟨k1, k2, k3⟩ := ih s2 h
      exact ⟨k1.trans h1, k2.trans h2, k3.trans h3⟩

/-- The rail-only call on a snapshot is the pass for its first entry followed
by the rail-only call on the rest. -/
theorem update_state_rail_cons (tb : tables) (s : vc_state) (r : rail_stats)
    (rest : List rail_stats) (add_points : ℚ) :
    update_state tb s (some (r :: rest)) none add_points =
      (rail_pass tb s.cur_temp_index s r).bind
        (fun s1 => update_state tb s1 (some rest) none add_points) := by
  cases hp : rail_pass tb s.cur_temp_index s r with
  | none => simp [update_state, update_branch, rail_loop, hp]
  | some s1 =>
    have hk := (rail_pass_keeps tb s.cur_temp_index s s1 r hp).1
    simp [update_state, update_branch, rail_loop, hp, hk]

/-- The shape of a pass that returns: the state is unchanged for a voltage
that labels no row, and otherwise row `w` is rebased and debited. -/
theorem rail_pass_some (tb : tables) (tcol : Int) (s s1 : vc_state) (rs : rail_stats)
    (h : rail_pass tb tcol s rs = some s1) :
    (get_yindex tb rs.milli_volts = -1 ∧ s1 = s) ∨
      ∃ (w : Nat) (saved : rail_stats) (rate : ℚ),
        get_yindex tb rs.milli_volts = (w : Int) ∧ s.saved_rs[w]? = some saved ∧
        read_at tb.btable ((w : Int) * ((tb.temp_list_size : Int) + 1) + tcol + 1) = some rate ∧
        s1 = { s with
          saved_rs := s.saved_rs.set w { saved with time_10msec := rs.time_10msec }
          session_points :=
            s.session_points - (rate * ((rs.time_10msec - saved.time_10msec : Int) : ℚ)) / 100 } := by
  rcases get_yindex_cases tb rs.milli_volts with hv | ⟨w, hv⟩
  · left
    rw [rail_pass_not_label tb tcol s rs hv] at h
    exact ⟨hv, (Option.some.inj h).symm⟩
  · right
    cases hs : s.saved_rs[w]? with
    | none =>
      have hge : (w : Int) ≥ 0 := Int.natCast_nonneg w
      simp [rail_pass, hv, hge, read_at_natCast, hs] at h
    | some saved =>
      cases hb : read_at tb.btable ((w : Int) * ((tb.temp_list_size : Int) + 1) + tcol + 1) with
      | none =>
        have hge : (w : Int) ≥ 0 := Int.natCast_nonneg w
        simp [rail_pass, hv, hge, read_at_natCast, hs, hb] at h
      | some rate =>
        rw [rail_pass_label tb tcol s rs w saved rate hv hs hb] at h
        exact ⟨w, saved, rate, hv, hs, hb, (Option.some.inj h).symm⟩

/-- With the sizes of `init_function` and a column inside the table, every
read of a pass is inside its array: the pass returns. -/
theorem rail_pass_total (tb : tables) (tcol : Int) (s : vc_state) (rs : rail_stats)
    (hsz : sizes_ok tb s) (hcol : col_ok tb tcol) :
    ∃ s1, rail_pass tb tcol s rs = some s1 := by
  rcases get_yindex_cases tb rs.milli_volts with hv | ⟨w, hv⟩
  · exact ⟨s, rail_pass_not_label tb tcol s rs hv⟩
  · have hrow := get_yindex_row_lt tb rs.milli_volts w hv
    unfold sizes_ok at hsz
    obtain ⟨hc0, hc1⟩ := hcol
    have hw : w < s.saved_rs.length := by
      by_contra hcon
      have : s.saved_rs.length * (tb.temp_list_size + 1) ≤ w * (tb.temp_list_size + 1) :=
        Nat.mul_le_mul_right _ (by omega)
      have hcomm : (tb.temp_list_size + 1) * w = w * (tb.temp_list_size + 1) := Nat.mul_comm _ _
      omega
    have hnext : (w + 1) * (tb.temp_list_size + 1) ≤ s.saved_rs.length * (tb.temp_list_size + 1) :=
      Nat.mul_le_mul_right _ (by omega)
    have hsucc : (w + 1) * (tb.temp_list_size + 1)
        = w * (tb.temp_list_size + 1) + (tb.temp_list_size + 1) := Nat.succ_mul _ _
    have hidx : (w : Int) * ((tb.temp_list_size : Int) + 1) + tcol + 1
        = ((w * (tb.temp_list_size + 1) + tcol.toNat + 1 : Nat) : Int) := by
      push_cast
      omega
    have hin : w * (tb.temp_list_size + 1) + tcol.toNat + 1 < tb.btable.length := by omega
    have hb : read_at tb.btable ((w : Int) * ((tb.temp_list_size : Int) + 1) + tcol + 1)
        = some (tb.btable[w * (tb.temp_list_size + 1) + tcol.toNat + 1]) := by
      rw [hidx, read_at_natCast]
      exact List.getElem?_eq_getElem hin
    exact ⟨_, rail_pass_label tb tcol s rs w _ _ hv (List.getElem?_eq_getElem hw) hb⟩

theorem rail_pass_sizes_ok (tb : tables) (tcol : Int) (s s1 : vc_state) (rs : rail_stats)
    (hsz : sizes_ok tb s) (h : rail_pass tb tcol s rs = some s1) : sizes_ok tb s1 := by
  unfold sizes_ok at *
  rw [(rail_pass_keeps tb tcol s s1 rs h).2.2]
  exact hsz

/-- With the sizes of `init_function` and a column inside the table the loop
over any snapshot returns. -/
theorem rail_loop_total (tb : tables) (tcol : Int) (s : vc_state) (rs : List rail_stats)
    (hsz : sizes_ok tb s) (hcol : col_ok tb tcol) :
    ∃ s1, rail_loop tb tcol s rs = some s1 := by
  induction rs generalizing s with
  | nil => exact ⟨s, rfl⟩
  | cons r rest ih =>
    obtain ⟨s2, h2⟩ := rail_pass_total tb tcol s r hsz hcol
    obtain ⟨s3, h3⟩ := ih s2 (rail_pass_sizes_ok tb tcol s s2 r hsz h2)
    exact ⟨s3, by simp [rail_loop, h2, h3]⟩

/-! ## Rail debit (C1, C2) -/

/-- C1. Rail debit. In a rail-only call of `update_state` the first entry
`r` of the snapshot is processed by one pass from the state `s`, and the rest
of the snapshot from the state the pass leaves. When the voltage of `r`
labels row `v` and its time is not below `last_seen[v]`, the pass lowers the
balance by exactly `B[v*(T+1) + cur_temp_index + 1] * (t_now - last_seen[v]) / 100`
and sets `last_seen[v]` to `t_now`, leaving every other entry, the column and
the write log alone. When the voltage labels no row of the table the pass
leaves the whole state, balance and `last_seen` included, unchanged. -/
theorem update_state_rail_debit (tb : tables) (s : vc_state) (r : rail_stats)
    (rest : List rail_stats) (add_points : ℚ) :
    update_state tb s (some (r :: rest)) none add_points =
        (rail_pass tb s.cur_temp_index s r).bind
          (fun s1 => update_state tb s1 (some rest) none add_points) ∧
      (∀ (v : Nat) (saved : rail_stats) (rate : ℚ),
        get_yindex tb r.milli_volts = (v : Int) →
        s.saved_rs[v]? = some saved →
        read_at tb.btable
          ((v : Int) * ((tb.temp_list_size : Int) + 1) + s.cur_temp_index + 1) = some rate →
        saved.time_10msec ≤ r.time_10msec →
        ∃ s1, rail_pass tb s.cur_temp_index s r = some s1 ∧
          s1.session_points =
            s.session_points - rate * ((r.time_10msec - saved.time_10msec : Int) : ℚ) / 100 ∧
          s1.saved_rs = s.saved_rs.set v { saved with time_10msec := r.time_10msec } ∧
          s1.cur_temp_index = s.cur_temp_index ∧ s1.writes = s.writes ∧
          (0 ≤ rate → s1.session_points ≤ s.session_points)) ∧
      ((∀ u : Nat, tb.btable[(tb.temp_list_size + 1) * u]? ≠ some (r.milli_volts : ℚ)) →
        rail_pass tb s.cur_temp_index s r = some s) := by
  refine ⟨update_state_rail_cons tb s r rest add_points, ?_, ?_⟩
  · intro v saved rate hv hs hb ht
    refine ⟨_, rail_pass_label tb s.cur_temp_index s r v saved rate hv hs hb,
      rfl, rfl, rfl, rfl, fun hrate => ?_⟩
    have hdiff : (0 : ℚ) ≤ ((r.time_10msec - saved.time_10msec : Int) : ℚ) := by
      exact_mod_cast Int.sub_nonneg.mpr ht
    have hprod : 0 ≤ rate * ((r.time_10msec - saved.time_10msec : Int) : ℚ) / 100 :=
      div_nonneg (mul_nonneg hrate hdiff) (by norm_num)
    simp only
    linarith
  · intro hnot
    rcases get_yindex_spec tb r.milli_volts with ⟨h1, _⟩ | ⟨w, _, h2, _⟩
    · exact rail_pass_not_label tb s.cur_temp_index s r h1
    · exact absurd h2 (hnot w)

/-- Scenario S1: from balance 500 the snapshot `(900, 1000), (1200, 2000)`
at `cur_temp_index = 0` leaves the balance at 410. -/
theorem update_state_rail_debit_witness :
    get_yindex scenario_tables 900 = 0 ∧ get_yindex scenario_tables 1200 = 1 ∧
      Option.map vc_state.session_points
        (update_state scenario_tables scenario_state
          (some [⟨900, 1000⟩, ⟨1200, 2000⟩]) none (-1)) = some 410 := by
  refine ⟨by decide, by decide, ?_⟩
  have h := update_state_rail_debit scenario_tables scenario_state ⟨900, 1000⟩ [⟨1200, 2000⟩] (-1)
  obtain ⟨s1, hp1, hb1, hs1, hc1, -, -⟩ :=
    h.2.1 0 ⟨0, 0⟩ 1 (by decide) (by decide) (by decide) (by decide)
  have h2 := update_state_rail_debit scenario_tables s1 ⟨1200, 2000⟩ [] (-1)
  obtain ⟨s2, hp2, hb2, -, -, -, -⟩ :=
    h2.2.1 1 ⟨0, 0⟩ 4 (by decide) (by rw [hs1]; decide) (by rw [hc1]; decide) (by decide)
  rw [h.1, hp1, Option.bind, h2.1, hp2]
  simp only [Option.bind, update_state, update_branch, rail_loop, Option.map, cap_writes]
  have e : s2.session_points = 410 := by
    rw [hb2, hb1]
    norm_num [scenario_state]
  split <;> simp [sysfs_write, e]

/-- C2, as stated, fails. Row 0 of the scenario tables is labelled 900 and has
rate 1 in column 1; the counter of the row stands at 1000 and the balance at
500. A snapshot reporting `(900, 0)` raises the balance to 510. -/
theorem rail_counter_decrease_raises_balance :
    get_yindex scenario_tables 900 = 0 ∧
      rebased_state.saved_rs[0]? = some ⟨0, 1000⟩ ∧
      rebased_state.session_points = 500 ∧
      Option.map vc_state.session_points
        (update_state scenario_tables rebased_state (some [⟨900, 0⟩]) none (-1)) = some 510 := by
  refine ⟨by decide, by decide, rfl, ?_⟩
  have hp := rail_pass_label scenario_tables rebased_state.cur_temp_index rebased_state
    ⟨900, 0⟩ 0 ⟨0, 1000⟩ 1 (by decide) (by decide) (by decide)
  rw [update_state_rail_cons, hp]
  simp only [Option.bind, update_state, update_branch, rail_loop, Option.map, cap_writes]
  split <;> simp [sysfs_write, rebased_state] <;> norm_num

/-- C2, amended. When the voltage of the first entry `r` labels row `v` and
its time is below `last_seen[v]`, the pass uses the negative difference as it
is: the balance rises by `B[v*(T+1) + cur_temp_index + 1] * (last_seen[v] - t_now) / 100`
(strictly for a positive rate, not at all for a zero rate), and `last_seen[v]`
is set to `t_now`. -/
theorem update_state_rail_rebase (tb : tables) (s : vc_state) (r : rail_stats)
    (rest : List rail_stats) (add_points : ℚ) (v : Nat) (saved : rail_stats) (rate : ℚ)
    (hv : get_yindex tb r.milli_volts = (v : Int))
    (hs : s.saved_rs[v]? = some saved)
    (hb : read_at tb.btable
      ((v : Int) * ((tb.temp_list_size : Int) + 1) + s.cur_temp_index + 1) = some rate)
    (hlt : r.time_10msec < saved.time_10msec) :
    ∃ s1, rail_pass tb s.cur_temp_index s r = some s1 ∧
      update_state tb s (some (r :: rest)) none add_points =
        update_state tb s1 (some rest) none add_points ∧
      s1.session_points =
        s.session_points + rate * ((saved.time_10msec - r.time_10msec : Int) : ℚ) / 100 ∧
      s1.saved_rs = s.saved_rs.set v { saved with time_10msec := r.time_10msec } ∧
      (0 < rate → s.session_points < s1.session_points) ∧
      (rate = 0 → s1.session_points = s.session_points) := by
  have hp := rail_pass_label tb s.cur_temp_index s r v saved rate hv hs hb
  have hdiff : (0 : ℚ) < ((saved.time_10msec - r.time_10msec : Int) : ℚ) := by
    exact_mod_cast Int.sub_pos.mpr hlt
  refine ⟨_, hp, ?_, ?_, rfl, fun hrate => ?_, fun hrate => ?_⟩
  · rw [update_state_rail_cons, hp, Option.bind]
  · simp only
    push_cast
    ring
  · have hprod : 0 < rate * ((saved.time_10msec - r.time_10msec : Int) : ℚ) / 100 :=
      div_pos (mul_pos hrate hdiff) (by norm_num)
    simp only
    push_cast at hprod ⊢
    linarith
  · simp only [hrate]
    ring

/-- The amended C2 on the scenario tables: the counter of row 0 falls from
1000 to 0 and the balance rises. -/
theorem update_state_rail_rebase_witness :
    ∃ s1, rail_pass scenario_tables rebased_state.cur_temp_index rebased_state ⟨900, 0⟩ = some s1 ∧
      update_state scenario_tables rebased_state (some [⟨900, 0⟩]) none (-1) =
        update_state scenario_tables s1 (some []) none (-1) ∧
      s1.session_points =
        rebased_state.session_points + 1 * (((1000 : Int) - 0 : Int) : ℚ) / 100 ∧
      s1.saved_rs = rebased_state.saved_rs.set 0 ⟨0, 0⟩ ∧
      ((0 : ℚ) < 1 → rebased_state.session_points < s1.session_points) ∧
      ((1 : ℚ) = 0 → s1.session_points = rebased_state.session_points) :=
  update_state_rail_rebase scenario_tables rebased_state ⟨900, 0⟩ [] (-1) 0 ⟨0, 1000⟩ 1
    (by decide) (by decide) (by decide) (by decide)

/-! ## The tail of `update_state` (C4) and the thermal branch (C9) -/

/-- The tail appends the cap writes chosen by the balance and changes nothing
else. -/
theorem cap_writes_spec (s : vc_state) :
    (cap_writes s).writes = s.writes ++
        (if s.session_points ≤ SAFE_USER_POINT_LIMIT
          then [(VOLT_FILE, "1300"), (CAPPING_ENABLE_FILE, "1")]
          else [(CAPPING_ENABLE_FILE, "0")]) ∧
      (cap_writes s).session_points = s.session_points ∧
      (cap_writes s).saved_rs = s.saved_rs ∧
      (cap_writes s).cur_temp_index = s.cur_temp_index := by
  unfold cap_writes
  split <;> simp [sysfs_write]

theorem thermal_update_keeps (tb : tables) (s s1 : vc_state) (ts : temperatures_stats)
    (h : thermal_update tb s ts = some s1) :
    s1.writes = s.writes ∧ s1.session_points = s.session_points ∧ s1.saved_rs = s.saved_rs := by
  unfold thermal_update at h
  split at h
  · exact absurd h (by simp)
  · simp only [Option.some.injEq] at h
    subst h
    split_ifs <;> exact ⟨rfl, rfl, rfl⟩

/-- No branch of `update_state` writes to the kernel files before the tail. -/
theorem update_branch_writes (tb : tables) (s s1 : vc_state) (rs : Option (List rail_stats))
    (ts : Option temperatures_stats) (add_points : ℚ)
    (h : update_branch tb s rs ts add_points = some s1) : s1.writes = s.writes := by
  unfold update_branch at h
  split at h
  · split at h
    · exact absurd h (by simp)
    · rename_i s2 h2
      exact (thermal_update_keeps tb s2 s1 _ h).1.trans (rail_loop_keeps tb _ s s2 _ h2).2.1
  · exact (rail_loop_keeps tb _ s s1 _ h).2.1
  · split at h <;> (simp only [Option.some.injEq] at h; subst h; rfl)

/-- The writes a call of `update_state` appends are those its final balance
selects. -/
theorem update_state_writes (tb : tables) (s s1 : vc_state) (rs : Option (List rail_stats))
    (ts : Option temperatures_stats) (add_points : ℚ)
    (h : update_state tb s rs ts add_points = some s1) :
    s1.writes = s.writes ++
      (if s1.session_points ≤ SAFE_USER_POINT_LIMIT
        then [(VOLT_FILE, "1300"), (CAPPING_ENABLE_FILE, "1")]
        else [(CAPPING_ENABLE_FILE, "0")]) := by
  unfold update_state at h
  split at h
  · exact absurd h (by simp)
  · rename_i s2 h2
    simp only [Option.some.injEq] at h
    subst h
    obtain ⟨hw, hp, -, -⟩ := cap_writes_spec s2
    rw [hw, hp, update_branch_writes tb s s2 rs ts add_points h2]

/-- With a column inside the table there is a breakpoint. -/
theorem temperatures_ne_nil_of_col_ok (tb : tables) (tcol : Int) (h : col_ok tb tcol) :
    tb.temperatures ≠ [] := by
  intro hnil
  obtain ⟨h0, h1⟩ := h
  simp [tables.temp_list_size, hnil] at h1
  omega

/-- With the sizes of `init_function` and the column inside the table, every
call of `update_state` returns. -/
theorem update_state_total (tb : tables) (s : vc_state) (rs : Option (List rail_stats))
    (ts : Option temperatures_stats) (add_points : ℚ)
    (hsz : sizes_ok tb s) (hcol : col_ok tb s.cur_temp_index) :
    ∃ s1, update_state tb s rs ts add_points = some s1 := by
  cases rs with
  | none =>
    by_cases ha : add_points ≠ 0
    · exact ⟨_, by simp [update_state, update_branch, ha]; rfl⟩
    · exact ⟨_, by simp [update_state, update_branch, ha]; rfl⟩
  | some rs =>
    obtain ⟨s2, h2⟩ := rail_loop_total tb s.cur_temp_index s rs hsz hcol
    cases ts with
    | none => exact ⟨_, by simp [update_state, update_branch, h2]; rfl⟩
    | some ts =>
      obtain ⟨x, hx, -, -, -⟩ := get_xindex_spec tb ts.current_temp
        (temperatures_ne_nil_of_col_ok tb _ hcol)
      exact ⟨_, by simp [update_state, update_branch, h2, thermal_update, hx]; rfl⟩

/-- C4. Capping follows the balance predicate. Whatever branch a call of
`update_state` takes, the writes it appends to the log are exactly
`volt <- "1300"` then `capping_state <- "1"` when the balance it leaves is at
most 100, and exactly `capping_state <- "0"` when that balance is above 100.
With the sizes set up by `init_function` and the temperature column inside
the table the call does return. -/
theorem update_state_cap_writes (tb : tables) (s : vc_state) (rs : Option (List rail_stats))
    (ts : Option temperatures_stats) (add_points : ℚ) :
    (∀ s1, update_state tb s rs ts add_points = some s1 →
        s1.writes = s.writes ++
          (if s1.session_points ≤ SAFE_USER_POINT_LIMIT
            then [(VOLT_FILE, "1300"), (CAPPING_ENABLE_FILE, "1")]
            else [(CAPPING_ENABLE_FILE, "0")])) ∧
      (sizes_ok tb s → col_ok tb s.cur_temp_index →
        ∃ s1, update_state tb s rs ts add_points = some s1) :=
  ⟨fun s1 h => update_state_writes tb s s1 rs ts add_points h,
    fun hsz hcol => update_state_total tb s rs ts add_points hsz hcol⟩

/-- Scenario S3: balance 50 and a credit of 100 give balance 150 and the
single write `"0"` to the enable file. -/
theorem update_state_cap_writes_witness :
    sizes_ok scenario_tables capped_state ∧ col_ok scenario_tables capped_state.cur_temp_index ∧
      ∃ s1, update_state scenario_tables capped_state none none 100 = some s1 ∧
        s1.session_points = 150 ∧ s1.writes = [(CAPPING_ENABLE_FILE, "0")] := by
  have hsz : sizes_ok scenario_tables capped_state := by
    unfold sizes_ok; decide
  have hcol : col_ok scenario_tables capped_state.cur_temp_index := by
    unfold col_ok; decide
  have h := update_state_cap_writes scenario_tables capped_state none none 100
  obtain ⟨s1, h1⟩ := h.2 hsz hcol
  have hw := h.1 s1 h1
  have hp : s1.session_points = 150 := by
    have h2 := h1
    simp only [update_state, update_branch] at h2
    rw [if_pos (by norm_num)] at h2
    simp only [Option.some.injEq] at h2
    rw [← h2, (cap_writes_spec _).2.1]
    norm_num [capped_state]
  refine ⟨hsz, hcol, s1, h1, hp, ?_⟩
  rw [hw, hp, if_neg (by norm_num [SAFE_USER_POINT_LIMIT])]
  rfl

/-- C9. Combined thermal update ordering. With at least one breakpoint, a
call of `update_state` with both a snapshot and a thermal event leaves the
state the rail-only call leaves (the debit uses the `cur_temp_index` held
before the call), except that `cur_temp_index` is then set to `i`, where
`i = get_xindex(temp)` when `is_rise` is non-zero and
`i = max(get_xindex(temp) - 1, 0)` otherwise. -/
theorem update_state_thermal_after_rail (tb : tables) (s : vc_state) (rs : List rail_stats)
    (ts : temperatures_stats) (add_points : ℚ) (hne : tb.temperatures ≠ []) :
    ∃ x : Nat, get_xindex tb ts.current_temp = some (x : Int) ∧ x < tb.temp_list_size ∧
      update_state tb s (some rs) (some ts) add_points =
        (update_state tb s (some rs) none add_points).map
          (fun s1 => { s1 with
            cur_temp_index := if ts.is_rise ≠ 0 then (x : Int) else max ((x : Int) - 1) 0 }) := by
  obtain ⟨x, hx, hlt, -, -⟩ := get_xindex_spec tb ts.current_temp hne
  refine ⟨x, hx, hlt, ?_⟩
  cases hloop : rail_loop tb s.cur_temp_index s rs with
  | none => simp [update_state, update_branch, hloop]
  | some s1 =>
    simp only [update_state, update_branch, hloop, thermal_update, hx, Option.map]
    have hx0 : (0 : Int) ≤ x := Int.natCast_nonneg x
    by_cases hr : ts.is_rise = 0
    · by_cases hz : (x : Int) = 0
      · simp only [hr, hz, if_true, ne_eq, not_true_eq_false, if_false, ge_iff_le, le_refl]
        unfold cap_writes
        split <;> simp [sysfs_write]
      · have hpos : (0 : Int) ≤ (x : Int) - 1 := by omega
        simp only [hr, hz, if_true, ne_eq, not_true_eq_false, if_false, ge_iff_le, hpos,
          max_eq_left hpos]
        unfold cap_writes
        split <;> simp [sysfs_write]
    · simp only [hr, if_false, ne_eq, not_false_eq_true, if_true, ge_iff_le, hx0]
      unfold cap_writes
      split <;> simp [sysfs_write]

/-- Scenario S4: from `cur_temp_index = 0`, the event `(85, rise)` with
breakpoints `[40, 80]` leaves `cur_temp_index = 1`. -/
theorem update_state_thermal_after_rail_witness :
    scenario_tables.temperatures ≠ [] ∧
      Option.map vc_state.cur_temp_index
        (update_state scenario_tables scenario_state (some [⟨900, 1000⟩, ⟨1200, 2000⟩])
          (some ⟨85, 1⟩) (-1)) = some 1 := by
  have hne : scenario_tables.temperatures ≠ [] := by decide
  refine ⟨hne, ?_⟩
  obtain ⟨x, hx, -, h⟩ := update_state_thermal_after_rail scenario_tables scenario_state
    [⟨900, 1000⟩, ⟨1200, 2000⟩] ⟨85, 1⟩ (-1) hne
  have hx1 : get_xindex scenario_tables 85 = some 1 := by decide
  have hxe : (x : Int) = 1 := by
    have := hx.symm.trans hx1
    exact Option.some.inj this
  obtain ⟨s1, h1⟩ := update_state_total scenario_tables scenario_state
    (some [⟨900, 1000⟩, ⟨1200, 2000⟩]) none (-1) (by unfold sizes_ok; decide)
    (by unfold col_ok; decide)
  rw [h, h1, hxe]
  simp

/-! ## The bin lookups (C7) -/

/-- C7. Temperature bin lookup. For a non-empty breakpoint list of length `T`
and any `temp`, `get_xindex(temp)` returns an index `i` in `0..T-1`, never -1:
the smallest `i` with `breakpoints[i] >= temp` when there is one (so 0 when
`temp` is not above the first breakpoint), and `T-1` when `temp` exceeds every
breakpoint. -/
theorem get_xindex_bin (tb : tables) (temp : Int) (hne : tb.temperatures ≠ []) :
    ∃ i : Nat, get_xindex tb temp = some (i : Int) ∧ i < tb.temp_list_size ∧
      get_xindex tb temp ≠ some (-1) ∧
      ((∃ (k : Nat) (t : Int), tb.temperatures[k]? = some t ∧ t ≥ temp) →
        (∃ t, tb.temperatures[i]? = some t ∧ t ≥ temp) ∧
          ∀ (k : Nat) (t : Int), k < i → tb.temperatures[k]? = some t → t < temp) ∧
      (∀ t0, tb.temperatures[0]? = some t0 → temp ≤ t0 → i = 0) ∧
      ((∀ t ∈ tb.temperatures, t < temp) → i = tb.temp_list_size - 1) := by
  obtain ⟨i, hi, hlt, hfirst, hlast⟩ := get_xindex_spec tb temp hne
  refine ⟨i, hi, hlt, ?_, hfirst, ?_, hlast⟩
  · rw [hi]
    intro h
    have := Option.some.inj h
    omega
  · intro t0 h0 hle
    obtain ⟨-, hmin⟩ := hfirst ⟨0, t0, h0, hle⟩
    by_contra hpos
    have := hmin 0 t0 (by omega) h0
    omega

/-- Scenario S4: with breakpoints `[40, 80]` the temperature 85 is in bin 1,
and a temperature below the first breakpoint is in bin 0. -/
theorem get_xindex_bin_witness :
    scenario_tables.temperatures ≠ [] ∧ get_xindex scenario_tables 85 = some 1 ∧
      get_xindex scenario_tables 10 = some 0 ∧
      ∃ i : Nat, get_xindex scenario_tables 85 = some (i : Int) ∧
        i < scenario_tables.temp_list_size ∧
        get_xindex scenario_tables 85 ≠ some (-1) ∧
        ((∃ (k : Nat) (t : Int), scenario_tables.temperatures[k]? = some t ∧ t ≥ 85) →
          (∃ t, scenario_tables.temperatures[i]? = some t ∧ t ≥ 85) ∧
            ∀ (k : Nat) (t : Int), k < i → scenario_tables.temperatures[k]? = some t → t < 85) ∧
        (∀ t0, scenario_tables.temperatures[0]? = some t0 → 85 ≤ t0 → i = 0) ∧
        ((∀ t ∈ scenario_tables.temperatures, t < 85) →
          i = scenario_tables.temp_list_size - 1) :=
  ⟨by decide, by decide, by decide, get_xindex_bin scenario_tables 85 (by decide)⟩

/-- Voltage bin lookup with the conversion `(float)mV` taken as exact. For a
burn table of `V` rows of `T+1` cells, `get_yindex(mV)` returns -1 exactly
when no row has `mV` as its column-0 label; otherwise it returns the index `v`
of the first row whose label equals `mV`, and `0 <= v < V`. -/
theorem get_yindex_label (tb : tables) (V : Nat) (mV : Int)
    (hsize : tb.btable.length = V * (tb.temp_list_size + 1)) :
    (get_yindex tb mV = -1 ↔
        ∀ v : Nat, v < V → tb.btable[v * (tb.temp_list_size + 1)]? ≠ some (mV : ℚ)) ∧
      (get_yindex tb mV ≠ -1 →
        ∃ v : Nat, get_yindex tb mV = (v : Int) ∧ v < V ∧
          tb.btable[v * (tb.temp_list_size + 1)]? = some (mV : ℚ) ∧
          ∀ u : Nat, u < v → tb.btable[u * (tb.temp_list_size + 1)]? ≠ some (mV : ℚ)) := by
  have hcomm : ∀ u : Nat, (tb.temp_list_size + 1) * u = u * (tb.temp_list_size + 1) :=
    fun u => Nat.mul_comm _ _
  have hrow : ∀ v : Nat, get_yindex tb mV = (v : Int) → v < V := by
    intro v hv
    have h1 := get_yindex_row_lt tb mV v hv
    rw [hsize, hcomm] at h1
    exact Nat.lt_of_mul_lt_mul_right h1
  rcases get_yindex_spec tb mV with ⟨h1, h2⟩ | ⟨v, h1, h2, h3⟩
  · refine ⟨⟨fun _ u _ => ?_, fun _ => h1⟩, fun hne => absurd h1 hne⟩
    rw [← hcomm]
    exact h2 u
  · refine ⟨⟨fun hm => ?_, fun hall => ?_⟩, fun _ => ⟨v, h1, hrow v h1, ?_, fun u hu => ?_⟩⟩
    · rw [h1] at hm
      omega
    · have := hall v (hrow v h1)
      rw [← hcomm] at this
      exact absurd h2 this
    · rw [← hcomm]
      exact h2
    · rw [← hcomm]
      exact h3 u hu

/-! ## The conversion `(float)volt` of `get_yindex` (C8) -/

theorem float_shift_small (fuel m : Nat) (h : m < 16777216) : float_shift fuel m = 0 := by
  cases fuel with
  | zero => rfl
  | succ fuel => simp [float_shift, h]

/-- The magnitude of an integer goes through the conversion unchanged when it
fits 24 bits, and so does `2^24`. -/
theorem int_to_float_mag (m : Nat) (h : m ≤ 16777216) :
    (if 2 * (m % 2 ^ float_shift m m) > 2 ^ float_shift m m ∨
        (2 * (m % 2 ^ float_shift m m) = 2 ^ float_shift m m ∧
          m / 2 ^ float_shift m m % 2 = 1)
      then m / 2 ^ float_shift m m + 1 else m / 2 ^ float_shift m m) * 2 ^ float_shift m m
      = m := by
  rcases Nat.lt_or_eq_of_le h with hlt | heq
  · rw [float_shift_small m m hlt]
    simp [Nat.mod_one]
  · subst heq
    decide

/-- An `int` of magnitude at most `2^24` is converted to binary32 exactly. -/
theorem int_to_float_exact (volt : Int) (h : |volt| ≤ 16777216) :
    int_to_float volt = (volt : ℚ) := by
  obtain ⟨hlo, hhi⟩ := abs_le.mp h
  have hm : volt.natAbs ≤ 16777216 := by omega
  unfold int_to_float
  simp only
  rw [int_to_float_mag volt.natAbs hm]
  by_cases hneg : volt < 0
  · rw [if_pos hneg]
    have hv : volt = -(volt.natAbs : Int) := by omega
    have hq : (volt : ℚ) = ((-(volt.natAbs : Int) : Int) : ℚ) :=
      congrArg (fun z : Int => (z : ℚ)) hv
    rw [hq, Int.cast_neg, Int.cast_natCast]
  · rw [if_neg hneg]
    have hv : volt = (volt.natAbs : Int) := by omega
    have hq : (volt : ℚ) = (((volt.natAbs : Int) : Int) : ℚ) :=
      congrArg (fun z : Int => (z : ℚ)) hv
    rw [hq, Int.cast_natCast]

/-- In the range where the conversion is exact, `get_yindex` with the
conversion rounded and with the conversion taken as exact are the same. -/
theorem get_yindex_float_eq (tb : tables) (volt : Int) (h : |volt| ≤ 16777216) :
    get_yindex_float tb volt = get_yindex tb volt := by
  unfold get_yindex_float get_yindex
  rw [int_to_float_exact volt h]

/-- With the conversion rounded, the result of `get_yindex` is -1 when no row
label equals `(float)volt`, and otherwise the first row whose label equals
`(float)volt`. -/
theorem get_yindex_float_spec (tb : tables) (volt : Int) :
    (get_yindex_float tb volt = -1 ∧
        ∀ u : Nat, tb.btable[(tb.temp_list_size + 1) * u]? ≠ some (int_to_float volt)) ∨
      ∃ v : Nat, get_yindex_float tb volt = (v : Int) ∧
        tb.btable[(tb.temp_list_size + 1) * v]? = some (int_to_float volt) ∧
        ∀ u : Nat, u < v →
          tb.btable[(tb.temp_list_size + 1) * u]? ≠ some (int_to_float volt) := by
  have h := get_yindex_loop_spec tb (int_to_float volt) (tb.btable_size + 1) 0
    (by simp [tables.btable_size])
  simp only [Nat.mul_zero] at h
  rcases h with ⟨h1, h2⟩ | ⟨v, _, h1, h2, h3⟩
  · exact Or.inl ⟨h1, fun u => h2 u (Nat.zero_le _)⟩
  · exact Or.inr ⟨v, h1, h2, fun u hu => h3 u (Nat.zero_le _) hu⟩

/-- C8, as stated, fails. The table `[16777216, 1, 2]` with `T = 2` has one
row, labelled `2^24`. No label equals 16777217, yet `(float)16777217` is
`16777216.0f` and `get_yindex(16777217)` returns row 0, not -1. -/
theorem get_yindex_float_rounds_label :
    wide_label_tables.btable.length = 1 * (wide_label_tables.temp_list_size + 1) ∧
      wide_label_tables.btable[0 * (wide_label_tables.temp_list_size + 1)]? =
        some (16777216 : ℚ) ∧
      ((16777217 : Int) : ℚ) ≠ 16777216 ∧
      int_to_float 16777217 = 16777216 ∧
      get_yindex_float wide_label_tables 16777217 = 0 := by
  refine ⟨by decide, by decide, by norm_num, by decide, by decide⟩

/-- C8, amended. Voltage bin lookup. For a burn table of `V` rows of `T+1`
cells and any `mV` with `|mV| <= 2^24`, where the conversion `(float)mV` is
exact, `get_yindex(mV)` returns -1 exactly when no row has `mV` as its
column-0 label; otherwise it returns the index `v` of the first row whose
label equals `mV`, and `0 <= v < V`. -/
theorem get_yindex_float_label (tb : tables) (V : Nat) (mV : Int)
    (hsize : tb.btable.length = V * (tb.temp_list_size + 1))
    (hbound : |mV| ≤ 16777216) :
    (get_yindex_float tb mV = -1 ↔
        ∀ v : Nat, v < V → tb.btable[v * (tb.temp_list_size + 1)]? ≠ some (mV : ℚ)) ∧
      (get_yindex_float tb mV ≠ -1 →
        ∃ v : Nat, get_yindex_float tb mV = (v : Int) ∧ v < V ∧
          tb.btable[v * (tb.temp_list_size + 1)]? = some (mV : ℚ) ∧
          ∀ u : Nat, u < v → tb.btable[u * (tb.temp_list_size + 1)]? ≠ some (mV : ℚ)) := by
  rw [get_yindex_float_eq tb mV hbound]
  exact get_yindex_label tb V mV hsize

/-- The scenario table `[900, 1, 2, 1200, 4, 8]` with `T = 2`:
`get_yindex(1200) = 1` and `get_yindex(1000) = -1`. -/
theorem get_yindex_float_label_witness :
    scenario_tables.btable.length = 2 * (scenario_tables.temp_list_size + 1) ∧
      |(1200 : Int)| ≤ 16777216 ∧
      get_yindex_float scenario_tables 1200 = 1 ∧ get_yindex_float scenario_tables 1000 = -1 ∧
      ((get_yindex_float scenario_tables 1200 = -1 ↔
          ∀ v : Nat, v < 2 →
            scenario_tables.btable[v * (scenario_tables.temp_list_size + 1)]? ≠
              some ((1200 : Int) : ℚ)) ∧
        (get_yindex_float scenario_tables 1200 ≠ -1 →
          ∃ v : Nat, get_yindex_float scenario_tables 1200 = (v : Int) ∧ v < 2 ∧
            scenario_tables.btable[v * (scenario_tables.temp_list_size + 1)]? =
              some ((1200 : Int) : ℚ) ∧
            ∀ u : Nat, u < v →
              scenario_tables.btable[u * (scenario_tables.temp_list_size + 1)]? ≠
                some ((1200 : Int) : ℚ))) :=
  ⟨by decide, by decide, by decide, by decide,
    get_yindex_float_label scenario_tables 2 1200 (by decide) (by decide)⟩

/-! ## Telescoping of the debits of one row (C10) -/

theorem last_time_append (t0 : Int) (l1 l2 : List Int) :
    last_time t0 (l1 ++ l2) = last_time (last_time t0 l1) l2 := by
  induction l1 generalizing t0 with
  | nil => rfl
  | cons a rest ih => exact ih a

theorem le_last_time_of_chain (t0 : Int) (l : List Int) (h : List.Chain (· ≤ ·) t0 l) :
    t0 ≤ last_time t0 l := by
  induction l generalizing t0 with
  | nil => exact le_refl _
  | cons a rest ih =>
    rw [List.chain_cons] at h
    exact le_trans h.1 (ih a h.2)

theorem bin_times_cons (tb : tables) (v : Nat) (r : rail_stats) (rs : List rail_stats) :
    bin_times tb v (r :: rs) =
      if get_yindex tb r.milli_volts = (v : Int) then r.time_10msec :: bin_times tb v rs
      else bin_times tb v rs := by
  unfold bin_times
  by_cases h : get_yindex tb r.milli_volts = (v : Int)
  · simp [List.filter_cons, h]
  · simp [List.filter_cons, h]

theorem bin_times_append (tb : tables) (v : Nat) (l1 l2 : List rail_stats) :
    bin_times tb v (l1 ++ l2) = bin_times tb v l1 ++ bin_times tb v l2 := by
  simp [bin_times]

/-- Along one loop the debits of row `v` add up to the rate times the
distance between the last and the first value of its counter. -/
theorem bin_debit_telescopes (tb : tables) (tcol : Int) (v : Nat) (rate : ℚ)
    (hb : read_at tb.btable ((v : Int) * ((tb.temp_list_size : Int) + 1) + tcol + 1) = some rate)
    (rs : List rail_stats) (s s1 : vc_state) (saved : rail_stats)
    (hloop : rail_loop tb tcol s rs = some s1) (hs : s.saved_rs[v]? = some saved) :
    ∃ last, s1.saved_rs[v]? = some last ∧
      last.time_10msec = last_time saved.time_10msec (bin_times tb v rs) ∧
      bin_debit tb tcol v s rs =
        rate * ((last.time_10msec - saved.time_10msec : Int) : ℚ) / 100 := by
  induction rs generalizing s saved with
  | nil =>
    simp only [rail_loop, Option.some.injEq] at hloop
    subst hloop
    exact ⟨saved, hs, rfl, by simp [bin_debit]⟩
  | cons r rest ih =>
    cases hp : rail_pass tb tcol s r with
    | none => simp [rail_loop, hp] at hloop
    | some s2 =>
      simp only [rail_loop, hp] at hloop
      rcases rail_pass_some tb tcol s s2 r hp with ⟨hv, heq⟩ | ⟨w, sw, rw_, hv, hsw, hbw, heq⟩
      · subst heq
        have hne : ¬ get_yindex tb r.milli_volts = (v : Int) := by rw [hv]; omega
        obtain ⟨last, h1, h2, h3⟩ := ih s2 saved hloop hs
        refine ⟨last, h1, ?_, ?_⟩
        · rw [bin_times_cons, if_neg hne]; exact h2
        · simp only [bin_debit, hp, if_neg hne, zero_add]; exact h3
      · by_cases hwv : w = v
        · subst hwv
          have hsaved : sw = saved := Option.some.inj (hsw.symm.trans hs)
          have hrate : rw_ = rate := Option.some.inj (hbw.symm.trans hb)
          subst hsaved hrate
          have hlen : w < s.saved_rs.length := (List.getElem?_eq_some.mp hs).1
          have hs2 : s2.saved_rs[w]? = some { sw with time_10msec := r.time_10msec } := by
            rw [heq]
            exact List.getElem?_set_self hlen
          obtain ⟨last, h1, h2, h3⟩ := ih s2 _ hloop hs2
          refine ⟨last, h1, ?_, ?_⟩
          · rw [bin_times_cons, if_pos hv]; exact h2
          · simp only [bin_debit, hp, if_pos hv, h3]
            rw [heq]
            simp only
            push_cast
            ring
        · have hne : ¬ get_yindex tb r.milli_volts = (v : Int) := by
            rw [hv]
            intro h
            exact hwv (by exact_mod_cast h)
          have hs2 : s2.saved_rs[v]? = some saved := by
            rw [heq]
            simp only
            rw [List.getElem?_set_ne hwv]
            exact hs
          obtain ⟨last, h1, h2, h3⟩ := ih s2 saved hloop hs2
          refine ⟨last, h1, ?_, ?_⟩
          · rw [bin_times_cons, if_neg hne]; exact h2
          · simp only [bin_debit, hp, if_neg hne, zero_add]; exact h3

/-- A rail-only call that returns is the loop followed by the tail. -/
theorem update_state_rail_some (tb : tables) (s s1 : vc_state) (rs : List rail_stats)
    (add_points : ℚ) (h : update_state tb s (some rs) none add_points = some s1) :
    ∃ s2, rail_loop tb s.cur_temp_index s rs = some s2 ∧ s1 = cap_writes s2 := by
  cases hloop : rail_loop tb s.cur_temp_index s rs with
  | none => simp [update_state, update_branch, hloop] at h
  | some s2 =>
    simp only [update_state, update_branch, hloop, Option.some.injEq] at h
    exact ⟨s2, rfl, h.symm⟩

/-- Over a sequence of rail-only calls the debits of row `v` add up to the
rate times the distance between the last and the first value of its
counter; the calls leave `cur_temp_index` alone. -/
theorem bin_debit_updates_telescopes (tb : tables) (add_points : ℚ) (v : Nat) (rate : ℚ)
    (snaps : List (List rail_stats)) (s s1 : vc_state) (saved : rail_stats)
    (hb : read_at tb.btable
      ((v : Int) * ((tb.temp_list_size : Int) + 1) + s.cur_temp_index + 1) = some rate)
    (hrun : rail_updates tb add_points s snaps = some s1) (hs : s.saved_rs[v]? = some saved) :
    s1.cur_temp_index = s.cur_temp_index ∧
    ∃ last, s1.saved_rs[v]? = some last ∧
      last.time_10msec = last_time saved.time_10msec (bin_times tb v snaps.flatten) ∧
      bin_debit_updates tb add_points v s snaps =
        rate * ((last.time_10msec - saved.time_10msec : Int) : ℚ) / 100 := by
  induction snaps generalizing s saved with
  | nil =>
    simp only [rail_updates, Option.some.injEq] at hrun
    subst hrun
    exact ⟨rfl, saved, hs, rfl, by simp [bin_debit_updates]⟩
  | cons snap rest ih =>
    cases hu : update_state tb s (some snap) none add_points with
    | none => simp [rail_updates, hu] at hrun
    | some s2 =>
      simp only [rail_updates, hu] at hrun
      obtain ⟨s3, hloop, hcap⟩ := update_state_rail_some tb s s2 snap add_points hu
      obtain ⟨mid, m1, m2, m3⟩ := bin_debit_telescopes tb s.cur_temp_index v rate hb snap s s3
        saved hloop hs
      have hcur : s2.cur_temp_index = s.cur_temp_index := by
        rw [hcap, (cap_writes_spec s3).2.2.2]
        exact (rail_loop_keeps tb _ s s3 snap hloop).1
      have hs2 : s2.saved_rs[v]? = some mid := by
        rw [hcap, (cap_writes_spec s3).2.2.1]
        exact m1
      obtain ⟨k0, last, k1, k2, k3⟩ := ih s2 mid (by rw [hcur]; exact hb) hrun hs2
      refine ⟨k0.trans hcur, last, k1, ?_, ?_⟩
      · rw [List.flatten_cons, bin_times_append, last_time_append, ← m2]
        exact k2
      · simp only [bin_debit_updates, hu, m3, k3]
        push_cast
        ring

/-- With the sizes of `init_function` and the column inside the table, a
sequence of rail-only calls returns. -/
theorem rail_updates_total (tb : tables) (add_points : ℚ) (snaps : List (List rail_stats))
    (s : vc_state) (hsz : sizes_ok tb s) (hcol : col_ok tb s.cur_temp_index) :
    ∃ s1, rail_updates tb add_points s snaps = some s1 := by
  induction snaps generalizing s with
  | nil => exact ⟨s, rfl⟩
  | cons snap rest ih =>
    obtain ⟨s2, h2⟩ := update_state_total tb s (some snap) none add_points hsz hcol
    obtain ⟨s3, hloop, hcap⟩ := update_state_rail_some tb s s2 snap add_points h2
    obtain ⟨hc, -, hl⟩ := rail_loop_keeps tb _ s s3 snap hloop
    have hsz2 : sizes_ok tb s2 := by
      unfold sizes_ok at *
      rw [hcap, (cap_writes_spec s3).2.2.1, hl]
      exact hsz
    have hcol2 : col_ok tb s2.cur_temp_index := by
      rw [hcap, (cap_writes_spec s3).2.2.2, hc]
      exact hcol
    obtain ⟨s4, h4⟩ := ih s2 hsz2 hcol2
    exact ⟨s4, by simp [rail_updates, h2, h4]⟩

/-- C10. No interval is debited twice. Take a row `v` whose cell in the
current temperature column holds `rate`, and any sequence of rail-only calls
of `update_state` whose snapshots report for `v`, in order, the non-decreasing
times `t_1 <= ... <= t_n`, starting from `last_seen[v] = t_0 <= t_1` (other
rows may be reported in between). The calls return, leave `cur_temp_index`
alone, leave `last_seen[v] = t_n`, and the debits they make for `v` add up to
`rate * (t_n - t_0) / 100`, however the interval is split into snapshots; with
a rate that is not negative the total is not negative. -/
theorem rail_debit_telescopes (tb : tables) (add_points : ℚ) (v : Nat) (rate : ℚ)
    (snaps : List (List rail_stats)) (s : vc_state) (saved : rail_stats)
    (hsz : sizes_ok tb s) (hcol : col_ok tb s.cur_temp_index)
    (hs : s.saved_rs[v]? = some saved)
    (hb : read_at tb.btable
      ((v : Int) * ((tb.temp_list_size : Int) + 1) + s.cur_temp_index + 1) = some rate)
    (hmono : List.Chain (· ≤ ·) saved.time_10msec (bin_times tb v snaps.flatten)) :
    ∃ s1, rail_updates tb add_points s snaps = some s1 ∧
      s1.cur_temp_index = s.cur_temp_index ∧
      (s1.saved_rs[v]?).map rail_stats.time_10msec =
        some (last_time saved.time_10msec (bin_times tb v snaps.flatten)) ∧
      bin_debit_updates tb add_points v s snaps =
        rate * ((last_time saved.time_10msec (bin_times tb v snaps.flatten)
          - saved.time_10msec : Int) : ℚ) / 100 ∧
      (0 ≤ rate → 0 ≤ bin_debit_updates tb add_points v s snaps) := by
  obtain ⟨s1, hrun⟩ := rail_updates_total tb add_points snaps s hsz hcol
  obtain ⟨hc, last, h1, h2, h3⟩ :=
    bin_debit_updates_telescopes tb add_points v rate snaps s s1 saved hb hrun hs
  refine ⟨s1, hrun, hc, by rw [h1, ← h2]; rfl, by rw [h3, h2], fun hrate => ?_⟩
  rw [h3, h2]
  have hle := le_last_time_of_chain _ _ hmono
  have hdiff : (0 : ℚ) ≤ ((last_time saved.time_10msec (bin_times tb v snaps.flatten)
      - saved.time_10msec : Int) : ℚ) := by
    exact_mod_cast Int.sub_nonneg.mpr hle
  exact div_nonneg (mul_nonneg hrate hdiff) (by norm_num)

/-- Scenarios S1 then S2: the counter of row 900 goes 0, 1000, 5000 at rate
1, and the two calls debit 50 for it in all. -/
theorem rail_debit_telescopes_witness :
    sizes_ok scenario_tables scenario_state ∧
      col_ok scenario_tables scenario_state.cur_temp_index ∧
      bin_times scenario_tables 0
        [[⟨900, 1000⟩, ⟨1200, 2000⟩], [⟨900, 5000⟩, ⟨1200, 6000⟩]].flatten = [1000, 5000] ∧
      bin_debit_updates scenario_tables (-1) 0 scenario_state
        [[⟨900, 1000⟩, ⟨1200, 2000⟩], [⟨900, 5000⟩, ⟨1200, 6000⟩]] = 50 := by
  have hsz : sizes_ok scenario_tables scenario_state := by unfold sizes_ok; decide
  have hcol : col_ok scenario_tables scenario_state.cur_temp_index := by unfold col_ok; decide
  have htimes : bin_times scenario_tables 0
      [[⟨900, 1000⟩, ⟨1200, 2000⟩], [⟨900, 5000⟩, ⟨1200, 6000⟩]].flatten = [1000, 5000] := by
    decide
  obtain ⟨s1, -, -, -, h, -⟩ := rail_debit_telescopes scenario_tables (-1) 0 1
    [[⟨900, 1000⟩, ⟨1200, 2000⟩], [⟨900, 5000⟩, ⟨1200, 6000⟩]] scenario_state ⟨0, 0⟩
    hsz hcol (by decide) (by decide) (by rw [htimes]; simp)
  refine ⟨hsz, hcol, htimes, ?_⟩
  rw [h, htimes]
  norm_num [last_time]

/-! ## Shared facts about `get_crcb` -/

theorem testBit_false_of_lt {x n i : Nat} (hx : x < 2 ^ n) (hi : n ≤ i) :
    x.testBit i = false :=
  Nat.testBit_lt_two_pow (Nat.lt_of_lt_of_le hx (Nat.pow_le_pow_right (by norm_num) hi))

/-- The pass of the source and the shift of the reference CRC-32 agree. -/
theorem crc_shift_eq_step (x : Nat) : crc_shift x = crc32_step x := by
  unfold crc_shift crc32_step
  simp only [Nat.and_one_is_mod, Nat.shiftRight_eq_div_pow, pow_one]
  rcases Nat.mod_two_eq_zero_or_one x with h | h
  · simp [h]
  · simp [h]

theorem crc_shifts_eq_iterate (n x : Nat) : crc_shifts n x = crc32_step^[n] x := by
  induction n generalizing x with
  | zero => rfl
  | succ n ih => rw [crc_shifts, ih, crc_shift_eq_step, Function.iterate_succ_apply]

/-- XOR with a byte touches the low byte only. -/
theorem xor_low_byte (x b : Nat) (hb : b < 256) :
    x ^^^ b = x / 256 * 256 + (x % 256 ^^^ b) := by
  have hb8 : b < 2 ^ 8 := hb
  have hlow : x % 2 ^ 8 ^^^ b < 2 ^ 8 :=
    Nat.xor_lt_two_pow (Nat.mod_lt _ (by norm_num)) hb8
  have h256 : (256 : Nat) = 2 ^ 8 := by norm_num
  rw [h256, Nat.mul_comm (x / 2 ^ 8) (2 ^ 8)]
  apply Nat.eq_of_testBit_eq
  intro i
  rw [Nat.testBit_mul_pow_two_add _ hlow, Nat.testBit_xor]
  by_cases hi : i < 8
  · rw [if_pos hi, Nat.testBit_xor, Nat.testBit_mod_two_pow, decide_eq_true hi, Bool.true_and]
  · have hbi : b.testBit i = false := testBit_false_of_lt hb8 (by omega)
    rw [if_neg hi, hbi, Bool.xor_false, ← Nat.shiftRight_eq_div_pow, Nat.testBit_shiftRight]
    congr 1
    omega

/-- On 32 bits the complement `~x` is the exclusive or with `0xFFFFFFFF`. -/
theorem xor_ones_eq_sub (x : Nat) (hx : x < 2 ^ 32) : x ^^^ 0xFFFFFFFF = 0xFFFFFFFF - x := by
  apply Nat.eq_of_testBit_eq
  intro i
  have h1 : (0xFFFFFFFF : Nat) = 2 ^ 32 - 1 := by norm_num
  have h2 : (0xFFFFFFFF : Nat) - x = 2 ^ 32 - (x + 1) := by omega
  rw [h2, Nat.testBit_two_pow_sub_succ hx, Nat.testBit_xor, h1, Nat.testBit_two_pow_sub_one]
  by_cases hi : i < 32
  · simp [hi]
  · simp [hi, testBit_false_of_lt hx (by omega : 32 ≤ i)]

theorem crc32_step_lt (x : Nat) (hx : x < 2 ^ 32) : crc32_step x < 2 ^ 32 := by
  unfold crc32_step
  have hhalf : x / 2 < 2 ^ 32 := by omega
  split
  · exact Nat.xor_lt_two_pow hhalf (by norm_num)
  · exact hhalf

theorem crc_shift_lt (x : Nat) (hx : x < 2 ^ 32) : crc_shift x < 2 ^ 32 := by
  rw [crc_shift_eq_step]
  exact crc32_step_lt x hx

theorem crc_shifts_lt (n x : Nat) (hx : x < 2 ^ 32) : crc_shifts n x < 2 ^ 32 := by
  induction n generalizing x with
  | zero => exact hx
  | succ n ih => exact ih _ (crc_shift_lt x hx)

theorem char_to_uint_lt (char_signed : Bool) (c : Nat) : char_to_uint char_signed c < 2 ^ 32 := by
  have hc : c % 256 < 256 := Nat.mod_lt _ (by norm_num)
  unfold char_to_uint
  split <;> omega

theorem crc_byte_lt (char_signed : Bool) (crc c : Nat) (hx : crc < 2 ^ 32) :
    crc_byte char_signed crc c < 2 ^ 32 :=
  crc_shifts_lt 8 _ (Nat.xor_lt_two_pow hx (char_to_uint_lt char_signed c))

theorem crc_loop_lt (char_signed : Bool) (crc : Nat) (cp : List Nat) (hx : crc < 2 ^ 32) :
    crc_loop char_signed crc cp < 2 ^ 32 := by
  induction cp generalizing crc with
  | nil => exact hx
  | cons c rest ih => exact ih _ (crc_byte_lt char_signed crc c hx)

theorem get_crcb_lt (char_signed : Bool) (cp : List Nat) : get_crcb char_signed cp < 2 ^ 32 :=
  Nat.xor_lt_two_pow (crc_loop_lt char_signed _ cp (by norm_num)) (by norm_num)

/-- With an unsigned plain `char` the loop of `get_crcb` is the fold of the
reference CRC-32. -/
theorem crc_loop_eq_foldl (crc : Nat) (cp : List Nat) :
    crc_loop false crc cp = cp.foldl crc32_feed crc := by
  induction cp generalizing crc with
  | nil => rfl
  | cons c rest ih =>
    have hbyte : crc_byte false crc c = crc32_feed crc c := by
      unfold crc_byte crc32_feed char_to_uint
      rw [crc_shifts_eq_iterate]
      simp only [Bool.false_and, Bool.false_eq_true, if_false]
      rw [xor_low_byte crc (c % 256) (Nat.mod_lt _ (by norm_num))]
    rw [crc_loop, List.foldl_cons, hbyte, ih]

/-! ## `get_crcb` is the standard CRC-32 (C6) -/

/-- C6. With plain `char` unsigned, as under the ARM EABI the daemon is built
for, `get_crcb` returns the standard CRC-32 of every byte sequence, bytes of
128 to 255 included: polynomial `0xEDB88320`, initial value `0xFFFFFFFF`, each
byte XORed into the low 8 bits only, 8 right shifts per byte, final
complement. The 9 ASCII bytes `123456789` give `0xCBF43926`. -/
theorem get_crcb_is_crc32 :
    (∀ cp : List Nat, get_crcb false cp = crc32_ieee cp) ∧
      get_crcb false [49, 50, 51, 52, 53, 54, 55, 56, 57] = 0xCBF43926 ∧
      get_crcb false [128, 255] = crc32_ieee [128, 255] := by
  refine ⟨fun cp => ?_, by decide, by decide⟩
  unfold get_crcb crc32_ieee
  rw [xor_ones_eq_sub _ (crc_loop_lt false _ cp (by norm_num)), crc_loop_eq_foldl]

/-- Where plain `char` is signed a byte of 128 or more is sign-extended into
the upper 24 bits of the running value, and the result is not the standard
CRC-32. -/
theorem get_crcb_signed_char_differs : get_crcb true [128] ≠ crc32_ieee [128] := by
  decide

/-- Where plain `char` is signed, `get_crcb` is still the standard CRC-32 on
bytes below 128. -/
theorem get_crcb_signed_char_low_bytes (cp : List Nat) (hlow : ∀ c ∈ cp, c % 256 < 128) :
    get_crcb true cp = crc32_ieee cp := by
  have hloop : ∀ crc : Nat, crc_loop true crc cp = crc_loop false crc cp := by
    induction cp with
    | nil => intro crc; rfl
    | cons c rest ih =>
      intro crc
      have hc : ¬ 128 ≤ c % 256 := by
        have := hlow c (List.mem_cons_self c rest)
        omega
      have hbyte : crc_byte true crc c = crc_byte false crc c := by
        simp [crc_byte, char_to_uint, hc]
      rw [crc_loop, crc_loop, hbyte]
      exact ih (fun b hb => hlow b (List.mem_cons_of_mem c hb)) _
  unfold get_crcb crc32_ieee
  rw [hloop, xor_ones_eq_sub _ (crc_loop_lt false _ cp (by norm_num)), crc_loop_eq_foldl]

/-! ## Corruption of the saved file (C5) -/

theorem crc32_step_inj (x y : Nat) (hx : x < 2 ^ 32) (hy : y < 2 ^ 32)
    (h : crc32_step x = crc32_step y) : x = y := by
  have hpoly : (0xEDB88320 : Nat).testBit 31 = true := by decide
  have hxh : x / 2 < 2 ^ 31 := by omega
  have hyh : y / 2 < 2 ^ 31 := by omega
  have mixed : ∀ a b : Nat, a < 2 ^ 31 → b < 2 ^ 31 → a ^^^ 0xEDB88320 ≠ b := by
    intro a b ha hb hab
    have h1 : (a ^^^ 0xEDB88320).testBit 31 = true := by
      rw [Nat.testBit_xor, Nat.testBit_lt_two_pow ha, hpoly]
      rfl
    rw [hab, Nat.testBit_lt_two_pow hb] at h1
    exact absurd h1 (by simp)
  unfold crc32_step at h
  by_cases hxo : x % 2 = 1
  · by_cases hyo : y % 2 = 1
    · rw [if_pos hxo, if_pos hyo] at h
      have := Nat.xor_left_injective h
      simp only at this
      omega
    · rw [if_pos hxo, if_neg hyo] at h
      exact absurd h (mixed _ _ hxh hyh)
  · by_cases hyo : y % 2 = 1
    · rw [if_neg hxo, if_pos hyo] at h
      exact absurd h.symm (mixed _ _ hyh hxh)
    · rw [if_neg hxo, if_neg hyo] at h
      omega

theorem crc_shifts_inj (n x y : Nat) (hx : x < 2 ^ 32) (hy : y < 2 ^ 32)
    (h : crc_shifts n x = crc_shifts n y) : x = y := by
  induction n generalizing x y with
  | zero => exact h
  | succ n ih =>
    have h1 := ih _ _ (crc_shift_lt x hx) (crc_shift_lt y hy) h
    rw [crc_shift_eq_step, crc_shift_eq_step] at h1
    exact crc32_step_inj x y hx hy h1

theorem char_to_uint_inj (char_signed : Bool) (a b : Nat)
    (h : char_to_uint char_signed a = char_to_uint char_signed b) : a % 256 = b % 256 := by
  have ha : a % 256 < 256 := Nat.mod_lt _ (by norm_num)
  have hb : b % 256 < 256 := Nat.mod_lt _ (by norm_num)
  unfold char_to_uint at h
  split at h <;> split at h <;> omega

/-- Two running values that differ still differ after the same byte. -/
theorem crc_byte_inj_crc (char_signed : Bool) (x y c : Nat) (hx : x < 2 ^ 32) (hy : y < 2 ^ 32)
    (h : crc_byte char_signed x c = crc_byte char_signed y c) : x = y := by
  have hc := char_to_uint_lt char_signed c
  have h1 := crc_shifts_inj 8 _ _ (Nat.xor_lt_two_pow hx hc) (Nat.xor_lt_two_pow hy hc) h
  exact Nat.xor_left_injective h1

/-- Two bytes that differ send a running value to different values. -/
theorem crc_byte_inj_byte (char_signed : Bool) (x a b : Nat) (hx : x < 2 ^ 32)
    (h : crc_byte char_signed x a = crc_byte char_signed x b) : a % 256 = b % 256 := by
  have h1 := crc_shifts_inj 8 _ _ (Nat.xor_lt_two_pow hx (char_to_uint_lt char_signed a))
    (Nat.xor_lt_two_pow hx (char_to_uint_lt char_signed b)) h
  exact char_to_uint_inj char_signed a b (Nat.xor_right_injective h1)

theorem crc_loop_inj (char_signed : Bool) (cp : List Nat) (x y : Nat) (hx : x < 2 ^ 32)
    (hy : y < 2 ^ 32) (h : crc_loop char_signed x cp = crc_loop char_signed y cp) : x = y := by
  induction cp generalizing x y with
  | nil => exact h
  | cons c rest ih =>
    exact crc_byte_inj_crc char_signed x y c hx hy
      (ih _ _ (crc_byte_lt char_signed x c hx) (crc_byte_lt char_signed y c hy) h)

/-- Flipping one of the eight bits of a byte changes the byte. -/
theorem flip_mod_ne (b k : Nat) (hk : k < 8) : (b ^^^ 2 ^ k) % 256 ≠ b % 256 := by
  intro h
  have h256 : (256 : Nat) = 2 ^ 8 := by norm_num
  rw [h256] at h
  have h1 := congrArg (fun n => Nat.testBit n k) h
  simp only [Nat.testBit_mod_two_pow, Nat.testBit_xor, Nat.testBit_two_pow_self,
    decide_eq_true hk, Bool.true_and, Bool.xor_true] at h1
  cases hb : b.testBit k <;> simp [hb] at h1

theorem flip_lt (b k : Nat) (hb : b < 256) (hk : k < 8) : b ^^^ 2 ^ k < 256 := by
  have h1 : b < 2 ^ 8 := hb
  have h2 : 2 ^ k < 2 ^ 8 := Nat.pow_lt_pow_right (by norm_num) hk
  exact Nat.xor_lt_two_pow h1 h2

theorem flip_ne (b k : Nat) (hk : k < 8) : b ^^^ 2 ^ k ≠ b := by
  intro h
  have h1 := flip_mod_ne b k hk
  rw [h] at h1
  exact h1 rfl

theorem crc_loop_flip (char_signed : Bool) (cp : List Nat) (x i k : Nat) (hx : x < 2 ^ 32)
    (hi : i < cp.length) (hk : k < 8) :
    crc_loop char_signed x (flip_bit cp i k) ≠ crc_loop char_signed x cp := by
  induction cp generalizing x i with
  | nil => exact absurd hi (Nat.not_lt_zero _)
  | cons c rest ih =>
    cases i with
    | zero =>
      intro h
      simp only [flip_bit, crc_loop] at h
      have h1 := crc_loop_inj char_signed rest _ _ (crc_byte_lt char_signed x _ hx)
        (crc_byte_lt char_signed x _ hx) h
      exact flip_mod_ne c k hk (crc_byte_inj_byte char_signed x _ _ hx h1)
    | succ i =>
      simp only [flip_bit, crc_loop]
      exact ih _ i (crc_byte_lt char_signed x c hx) (by simpa using hi)

/-- The checksum of a record changes when one bit of the record is flipped. -/
theorem get_crcb_flip (char_signed : Bool) (cp : List Nat) (i k : Nat)
    (hi : i < cp.length) (hk : k < 8) :
    get_crcb char_signed (flip_bit cp i k) ≠ get_crcb char_signed cp := by
  intro h
  exact crc_loop_flip char_signed cp _ i k (by norm_num) hi hk (Nat.xor_left_injective h)

theorem flip_bit_length (bs : List Nat) (i k : Nat) : (flip_bit bs i k).length = bs.length := by
  induction bs generalizing i with
  | nil => rfl
  | cons b rest ih =>
    cases i with
    | zero => rfl
    | succ i => simp [flip_bit, ih]

theorem flip_bit_append_left (l1 l2 : List Nat) (i k : Nat) (hi : i < l1.length) :
    flip_bit (l1 ++ l2) i k = flip_bit l1 i k ++ l2 := by
  induction l1 generalizing i with
  | nil => exact absurd hi (Nat.not_lt_zero _)
  | cons b rest ih =>
    cases i with
    | zero => rfl
    | succ i =>
      show b :: flip_bit (rest ++ l2) i k = b :: (flip_bit rest i k ++ l2)
      rw [ih i (by simpa using hi)]

theorem flip_bit_append_right (l1 l2 : List Nat) (j k : Nat) :
    flip_bit (l1 ++ l2) (l1.length + j) k = l1 ++ flip_bit l2 j k := by
  induction l1 with
  | nil => simp
  | cons b rest ih =>
    have : (b :: rest).length + j = (rest.length + j) + 1 := by simp; omega
    rw [this]
    show b :: flip_bit (rest ++ l2) (rest.length + j) k = b :: (rest ++ flip_bit l2 j k)
    rw [ih]

theorem uint_of_bytes_uint_bytes (x : Nat) (hx : x < 2 ^ 32) :
    uint_of_bytes (uint_bytes x) = x := by
  simp only [uint_of_bytes, uint_bytes, List.getD_cons_zero, List.getD_cons_succ]
  omega

/-- Four bytes with one bit flipped no longer read back as the same word. -/
theorem uint_of_bytes_flip (x j k : Nat) (hx : x < 2 ^ 32) (hj : j < 4) (hk : k < 8) :
    uint_of_bytes (flip_bit (uint_bytes x) j k) ≠ x := by
  have h0 : x % 256 < 256 := Nat.mod_lt _ (by norm_num)
  have h1 : x / 256 % 256 < 256 := Nat.mod_lt _ (by norm_num)
  have h2 : x / 65536 % 256 < 256 := Nat.mod_lt _ (by norm_num)
  have h3 : x / 16777216 % 256 < 256 := Nat.mod_lt _ (by norm_num)
  have f0 := flip_lt _ k h0 hk
  have f1 := flip_lt _ k h1 hk
  have f2 := flip_lt _ k h2 hk
  have f3 := flip_lt _ k h3 hk
  have n0 := flip_ne (x % 256) k hk
  have n1 := flip_ne (x / 256 % 256) k hk
  have n2 := flip_ne (x / 65536 % 256) k hk
  have n3 := flip_ne (x / 16777216 % 256) k hk
  have hcases : j = 0 ∨ j = 1 ∨ j = 2 ∨ j = 3 := by omega
  rcases hcases with rfl | rfl | rfl | rfl <;>
    simp only [uint_of_bytes, uint_bytes, flip_bit, List.getD_cons_zero, List.getD_cons_succ] <;>
    omega

theorem read_saved_parts (char_signed : Bool) (sizeof_sd : Nat) (decode : List Nat → saved_data)
    (r t : List Nat) (hr : r.length = sizeof_sd) (ht : t.length = 4) :
    read_saved char_signed sizeof_sd decode (some (r ++ t)) =
      some (decode r, decide (uint_of_bytes t = get_crcb char_signed r)) := by
  have htake : (r ++ t).take sizeof_sd = r := List.take_left' hr
  have hdrop : (r ++ t).drop sizeof_sd = t := List.drop_left' hr
  have ht4 : t.take 4 = t := List.take_of_length_le (by omega)
  simp only [read_saved, htake, hdrop, ht4, hr, ht, lt_self_iff_false, if_false]
  simp

/-- The file `save_to_file` writes validates when it is read back. -/
theorem read_saved_valid (char_signed : Bool) (sizeof_sd : Nat) (decode : List Nat → saved_data)
    (r : List Nat) (hr : r.length = sizeof_sd) :
    read_saved char_signed sizeof_sd decode (some (r ++ uint_bytes (get_crcb char_signed r))) =
      some (decode r, true) := by
  rw [read_saved_parts char_signed sizeof_sd decode r (uint_bytes (get_crcb char_signed r)) hr rfl,
    uint_of_bytes_uint_bytes _ (get_crcb_lt char_signed r)]
  simp

/-- The file `save_to_file` writes no longer validates once one of its bits
is flipped. -/
theorem read_saved_flip (char_signed : Bool) (sizeof_sd : Nat) (decode : List Nat → saved_data)
    (r : List Nat) (i k : Nat) (hr : r.length = sizeof_sd) (hi : i < sizeof_sd + 4)
    (hk : k < 8) :
    ∃ sd, read_saved char_signed sizeof_sd decode
      (some (flip_bit (r ++ uint_bytes (get_crcb char_signed r)) i k)) = some (sd, false) := by
  by_cases hrec : i < r.length
  · rw [flip_bit_append_left _ _ i k hrec,
      read_saved_parts char_signed sizeof_sd decode (flip_bit r i k)
        (uint_bytes (get_crcb char_signed r)) ((flip_bit_length r i k).trans hr) rfl,
      uint_of_bytes_uint_bytes _ (get_crcb_lt char_signed r)]
    have hne := get_crcb_flip char_signed r i k hrec hk
    exact ⟨decode (flip_bit r i k), by simp [Ne.symm hne]⟩
  · obtain ⟨j, hj⟩ : ∃ j, i = r.length + j := ⟨i - r.length, by omega⟩
    subst hj
    rw [flip_bit_append_right,
      read_saved_parts char_signed sizeof_sd decode r
        (flip_bit (uint_bytes (get_crcb char_signed r)) j k) hr
        ((flip_bit_length (uint_bytes (get_crcb char_signed r)) j k).trans rfl)]
    have hne := uint_of_bytes_flip _ j k (get_crcb_lt char_signed r) (by omega) hk
    exact ⟨decode r, by simp [hne]⟩

/-- C5. Single-bit corruption is always detected. For every record `r` of
`sizeof(sd)` bytes, the file `r || get_crcb(r)` is what `save_to_file` writes
and validates when read back; after a flip of any one bit of the record bytes
or of the 4 CRC bytes the comparison of `read_crc` with `calc_crc` in
`init_function` fails and the balance is set to the 2100 default. This holds
whether plain `char` is signed or not. -/
theorem init_function_detects_bit_flip (char_signed : Bool) (sizeof_sd : Nat)
    (decode : List Nat → saved_data) (r : List Nat) (i k : Nat) (current_time : timespec)
    (hlen : r.length = sizeof_sd) (hi : i < sizeof_sd + 4) (hk : k < 8) :
    (∀ (encode : saved_data → List Nat) (sd : saved_data) (now : timespec) (points : ℚ),
        (save_to_file char_signed encode sd now points).2 =
          encode (save_to_file char_signed encode sd now points).1 ++
            uint_bytes (get_crcb char_signed
              (encode (save_to_file char_signed encode sd now points).1))) ∧
      read_saved char_signed sizeof_sd decode
        (some (r ++ uint_bytes (get_crcb char_signed r))) = some (decode r, true) ∧
      (∃ sd, read_saved char_signed sizeof_sd decode
        (some (flip_bit (r ++ uint_bytes (get_crcb char_signed r)) i k)) = some (sd, false)) ∧
      init_function char_signed sizeof_sd decode
        (some (flip_bit (r ++ uint_bytes (get_crcb char_signed r)) i k)) current_time =
          some 2100 := by
  obtain ⟨sd, hsd⟩ := read_saved_flip char_signed sizeof_sd decode r i k hlen hi hk
  refine ⟨fun _ _ _ _ => rfl, read_saved_valid char_signed sizeof_sd decode r hlen,
    ⟨sd, hsd⟩, ?_⟩
  simp [init_function, hsd, init_points]

/-- The scenario file with bit 3 of its second CRC byte flipped, and with
bit 0 of the third byte of the balance flipped: both start at 2100. -/
theorem init_function_detects_bit_flip_witness :
    scenario_record.length = 16 ∧
      init_function false 16 arm_decode (some (flip_bit scenario_file 17 3)) ⟨87400, 0⟩ =
        some 2100 ∧
      init_function false 16 arm_decode (some (flip_bit scenario_file 2 0)) ⟨87400, 0⟩ =
        some 2100 :=
  ⟨by decide,
    (init_function_detects_bit_flip false 16 arm_decode scenario_record 17 3 ⟨87400, 0⟩
      (by decide) (by decide) (by decide)).2.2.2,
    (init_function_detects_bit_flip false 16 arm_decode scenario_record 2 0 ⟨87400, 0⟩
      (by decide) (by decide) (by decide)).2.2.2⟩

/-! ## Startup credit (C3) -/

/-- For a validated record saved before the current second, `init_function`
calls `diff_time(current_time, sd.saved_time, &diff)`: `start` is the current
time and `finish` the saved time, so `diff.tv_sec` is negative and the
balance it leaves is below the saved balance. -/
theorem init_points_valid_below (sd : saved_data) (current_time : timespec)
    (h : sd.saved_time.tv_sec < current_time.tv_sec) :
    init_points sd true current_time =
        sd.balance_points -
          ((current_time.tv_sec - sd.saved_time.tv_sec +
            (if sd.saved_time.tv_nsec - current_time.tv_nsec < 0 then 1 else 0) : Int) : ℚ)
            * (100 / 86400) ∧
      init_points sd true current_time < sd.balance_points := by
  have hnle : ¬ current_time.tv_sec ≤ sd.saved_time.tv_sec := by omega
  have hpos : (0 : ℚ) < ((current_time.tv_sec - sd.saved_time.tv_sec : Int) : ℚ) := by
    exact_mod_cast Int.sub_pos.mpr h
  simp only [init_points, if_true, hnle, if_false, diff_time, DAILY_POINTS_UPDATE]
  push_cast at hpos
  split <;> (push_cast; constructor <;> [ring; nlinarith])

/-- C3: the code at the failing input. The scenario file holds a record that
validates, with balance 200 saved at 1000 s. Started at 87400 s, one day
later, `init_function` leaves the balance 100, not 300. -/
theorem init_function_debits_elapsed_day :
    arm_decode scenario_record = ⟨200, ⟨1000, 0⟩, 0⟩ ∧
      read_saved false 16 arm_decode (some scenario_file) =
        some (arm_decode scenario_record, true) ∧
      init_function false 16 arm_decode (some scenario_file) ⟨87400, 0⟩ = some 100 := by
  have hdec : arm_decode scenario_record = ⟨200, ⟨1000, 0⟩, 0⟩ := by
    simp [arm_decode, scenario_record, float_of_bits, long_of_bytes, uint_of_bytes]
    norm_num
  have hread := read_saved_valid false 16 arm_decode scenario_record (by decide)
  refine ⟨hdec, hread, ?_⟩
  have hfile : scenario_file = scenario_record ++ uint_bytes (get_crcb false scenario_record) :=
    rfl
  rw [init_function, hfile, hread, hdec]
  simp only [init_points, if_true, diff_time, DAILY_POINTS_UPDATE]
  norm_num

/-! ## The credit path (C11) -/

/-- The call of `update_state` with a null `rs`: the credit is added to the
balance and the tail runs; a zero credit adds nothing. -/
theorem update_state_credit (tb : tables) (s : vc_state) (ts : Option temperatures_stats)
    (p : ℚ) :
    update_state tb s none ts p =
      some (cap_writes { s with session_points := s.session_points + p }) := by
  by_cases hp : p = 0
  · subst hp
    have hs : ({ s with session_points := s.session_points + 0 } : vc_state) = s := by
      simp
    rw [hs]
    simp [update_state, update_branch]
  · simp [update_state, update_branch, hp]

/-- The pass of `points_record` is the credit call for the whole seconds of
the time slept, carried nanoseconds included. -/
theorem points_record_pass_eq (tb : tables) (s : vc_state) (saved_ns : Int)
    (start finish : timespec) :
    (points_record_pass tb s saved_ns start finish).1 =
      update_state tb s none none
        (points_to_add (add_nsec (diff_time start finish) saved_ns).tv_sec) := rfl

theorem points_to_add_eq (seconds : Int) : points_to_add seconds = (seconds : ℚ) * 100 / 86400 := by
  simp only [points_to_add, points_per_sec, DAILY_POINTS_UPDATE]
  norm_num
  ring

/-- C11. Credit is additive. The credit path of `update_state` (null `rs`,
`add_points = seconds * points_per_sec` as `points_record` computes it) adds
exactly `seconds * 100 / 86400` to the balance and leaves `last_seen` and
`cur_temp_index` alone; for non-negative `a` and `b`, crediting `a` seconds
and then `b` seconds leaves the same balance, `last_seen` and
`cur_temp_index` as crediting `a + b` seconds once, and the last call of
either appends the same cap writes. -/
theorem update_state_credit_additive (tb : tables) (s : vc_state)
    (ts : Option temperatures_stats) (a b : Int) (ha : 0 ≤ a) (hb : 0 ≤ b) :
    ∃ s1 s2 s3 : vc_state,
      update_state tb s none ts (points_to_add a) = some s1 ∧
      s1.session_points = s.session_points + (a : ℚ) * 100 / 86400 ∧
      s1.saved_rs = s.saved_rs ∧ s1.cur_temp_index = s.cur_temp_index ∧
      s.session_points ≤ s1.session_points ∧
      update_state tb s1 none ts (points_to_add b) = some s2 ∧
      update_state tb s none ts (points_to_add (a + b)) = some s3 ∧
      s2.session_points = s3.session_points ∧ s2.saved_rs = s3.saved_rs ∧
      s2.cur_temp_index = s3.cur_temp_index ∧ s1.session_points ≤ s2.session_points ∧
      ∃ w, s2.writes = s1.writes ++ w ∧ s3.writes = s.writes ++ w := by
  have ha' : (0 : ℚ) ≤ (a : ℚ) * 100 / 86400 := by
    have : (0 : ℚ) ≤ (a : ℚ) := by exact_mod_cast ha
    positivity
  have hb' : (0 : ℚ) ≤ (b : ℚ) * 100 / 86400 := by
    have : (0 : ℚ) ≤ (b : ℚ) := by exact_mod_cast hb
    positivity
  refine ⟨_, _, _, update_state_credit tb s ts _, ?_, ?_, ?_, ?_,
    update_state_credit tb _ ts _, update_state_credit tb s ts _, ?_, ?_, ?_, ?_, ?_⟩
  · rw [(cap_writes_spec _).2.1, points_to_add_eq]
  · rw [(cap_writes_spec _).2.2.1]
  · rw [(cap_writes_spec _).2.2.2]
  · rw [(cap_writes_spec _).2.1, points_to_add_eq]
    simp only
    linarith
  · simp only [(cap_writes_spec _).2.1, points_to_add_eq]
    push_cast
    ring
  · simp only [(cap_writes_spec _).2.2.1]
  · simp only [(cap_writes_spec _).2.2.2]
  · simp only [(cap_writes_spec _).2.1, points_to_add_eq]
    linarith
  · have hsame : s.session_points + points_to_add a + points_to_add b
        = s.session_points + points_to_add (a + b) := by
      simp only [points_to_add_eq]
      push_cast
      ring
    refine ⟨_, (cap_writes_spec _).1, ?_⟩
    rw [(cap_writes_spec _).1]
    simp only [(cap_writes_spec _).2.1, hsame]

/-- Scenario S3: from balance 50 a credit for 86400 seconds gives 150. -/
theorem update_state_credit_additive_witness :
    (0 : Int) ≤ 86400 ∧ (0 : Int) ≤ 0 ∧
      Option.map vc_state.session_points
        (update_state scenario_tables capped_state none none (points_to_add 86400)) = some 150 := by
  obtain ⟨s1, s2, s3, h1, hp, -⟩ := update_state_credit_additive scenario_tables capped_state
    none 86400 0 (by decide) (by decide)
  refine ⟨by decide, by decide, ?_⟩
  rw [h1, Option.map, hp]
  norm_num [capped_state]

/-! ## Table accesses stay in range (C12) -/

/-- A pass reads `vc.saved_rs` and `btable` at the indices of `pass_accesses`
and nowhere else: it returns exactly when both reads are inside their
arrays. -/
theorem rail_pass_reads_at (tb : tables) (tcol : Int) (s : vc_state) (rs : rail_stats) :
    rail_pass tb tcol s rs =
      match pass_accesses tb tcol rs with
      | none => some s
      | some (i, j) =>
        match read_at s.saved_rs i, read_at tb.btable j with
        | some saved, some rate =>
          some { s with
            saved_rs := s.saved_rs.set i.toNat { saved with time_10msec := rs.time_10msec }
            session_points :=
              s.session_points -
                (rate * ((rs.time_10msec - saved.time_10msec : Int) : ℚ)) / 100 }
        | _, _ => none := by
  unfold rail_pass pass_accesses
  by_cases h : get_yindex tb rs.milli_volts ≥ 0
  · simp only [h, if_true]
  · simp only [h, if_false]

/-- With a table of `V` whole rows and the column inside the table, the reads
of a pass have `0 <= vrow < V` and a `btable` index inside the table. -/
theorem pass_accesses_in_range (tb : tables) (tcol : Int) (V : Nat) (rs : rail_stats)
    (acc : Int × Int) (hsize : tb.btable.length = V * (tb.temp_list_size + 1))
    (hcol : col_ok tb tcol) (hacc : pass_accesses tb tcol rs = some acc) :
    0 ≤ acc.1 ∧ acc.1 < (V : Int) ∧ 0 ≤ acc.2 ∧ acc.2 < (tb.btable.length : Int) := by
  obtain ⟨hc0, hc1⟩ := hcol
  rcases get_yindex_cases tb rs.milli_volts with hv | ⟨w, hv⟩
  · simp [pass_accesses, hv] at hacc
  · have hge : (w : Int) ≥ 0 := Int.natCast_nonneg w
    simp only [pass_accesses, hv, hge, if_true, Option.some.injEq] at hacc
    subst hacc
    have hrow := get_yindex_row_lt tb rs.milli_volts w hv
    have hcomm : (tb.temp_list_size + 1) * w = w * (tb.temp_list_size + 1) := Nat.mul_comm _ _
    have hw : w < V := by
      by_contra hcon
      have : V * (tb.temp_list_size + 1) ≤ w * (tb.temp_list_size + 1) :=
        Nat.mul_le_mul_right _ (by omega)
      omega
    have hnext : (w + 1) * (tb.temp_list_size + 1) ≤ V * (tb.temp_list_size + 1) :=
      Nat.mul_le_mul_right _ (by omega)
    have hsucc : (w + 1) * (tb.temp_list_size + 1)
        = w * (tb.temp_list_size + 1) + (tb.temp_list_size + 1) := Nat.succ_mul _ _
    have hprod : (w : Int) * ((tb.temp_list_size : Int) + 1)
        = ((w * (tb.temp_list_size + 1) : Nat) : Int) := by
      push_cast
      ring
    refine ⟨hge, ?_, ?_, ?_⟩
    · show (w : Int) < (V : Int)
      exact_mod_cast hw
    · simp only
      rw [hprod]
      omega
    · simp only
      rw [hprod]
      omega

/-- A call of `update_state` that returns leaves the length of `vc.saved_rs`
as it was, and leaves `cur_temp_index` inside the table when it was. -/
theorem update_state_keeps_ranges (tb : tables) (s s1 : vc_state)
    (rs : Option (List rail_stats)) (ts : Option temperatures_stats) (add_points : ℚ)
    (hcol : col_ok tb s.cur_temp_index)
    (h : update_state tb s rs ts add_points = some s1) :
    s1.saved_rs.length = s.saved_rs.length ∧ col_ok tb s1.cur_temp_index := by
  cases rs with
  | none =>
    rw [update_state_credit, Option.some.injEq] at h
    subst h
    rw [(cap_writes_spec _).2.2.1, (cap_writes_spec _).2.2.2]
    exact ⟨rfl, hcol⟩
  | some snap =>
    cases hloop : rail_loop tb s.cur_temp_index s snap with
    | none => cases ts <;> simp [update_state, update_branch, hloop] at h
    | some s2 =>
      obtain ⟨k1, -, k3⟩ := rail_loop_keeps tb _ s s2 snap hloop
      cases ts with
      | none =>
        simp only [update_state, update_branch, hloop, Option.some.injEq] at h
        subst h
        rw [(cap_writes_spec _).2.2.1, (cap_writes_spec _).2.2.2, k1]
        exact ⟨k3, hcol⟩
      | some ev =>
        obtain ⟨x, hx, hlt, -, -⟩ := get_xindex_spec tb ev.current_temp
          (temperatures_ne_nil_of_col_ok tb _ hcol)
        simp only [update_state, update_branch, hloop, thermal_update, hx,
          Option.some.injEq] at h
        subst h
        rw [(cap_writes_spec _).2.2.1, (cap_writes_spec _).2.2.2]
        have hx0 : (0 : Int) ≤ x := Int.natCast_nonneg x
        have hxT : (x : Int) < (tb.temp_list_size : Int) := by exact_mod_cast hlt
        unfold col_ok
        split_ifs <;> refine ⟨k3, ?_, ?_⟩ <;> dsimp only <;> omega

/-- C12. Table accesses stay in range. Let `T >= 1`, `btable_size = V * (T+1)`,
`vc.saved_rs` have `V` entries (the `vc.volt_steps` of `init_function`) and
`0 <= cur_temp_index <= T-1` on entry. Then for every snapshot and every
optional thermal event, each pass of the loop of `update_state` reads
`vc.saved_rs[vrow]` with `0 <= vrow < V` and `btable` at an index
`vrow*(T+1) + cur_temp_index + 1` with `0 <= index < btable_size`; the call
returns, and `0 <= cur_temp_index <= T-1` holds again, with `vc.saved_rs`
still of `V` entries. -/
theorem update_state_accesses_in_range (tb : tables) (s : vc_state) (V : Nat)
    (rs : Option (List rail_stats)) (ts : Option temperatures_stats) (add_points : ℚ)
    (hT : 1 ≤ tb.temp_list_size) (hsize : tb.btable_size = V * (tb.temp_list_size + 1))
    (hrs : s.saved_rs.length = V) (hc0 : 0 ≤ s.cur_temp_index)
    (hc1 : s.cur_temp_index ≤ (tb.temp_list_size : Int) - 1) :
    tb.volt_steps = V ∧
      (∀ snap, rs = some snap → ∀ acc ∈ loop_accesses tb s.cur_temp_index snap,
        0 ≤ acc.1 ∧ acc.1 < (V : Int) ∧ 0 ≤ acc.2 ∧ acc.2 < (tb.btable_size : Int)) ∧
      ∃ s1, update_state tb s rs ts add_points = some s1 ∧
        0 ≤ s1.cur_temp_index ∧ s1.cur_temp_index ≤ (tb.temp_list_size : Int) - 1 ∧
        s1.saved_rs.length = V := by
  have hlen : tb.btable.length = V * (tb.temp_list_size + 1) := hsize
  have hcol : col_ok tb s.cur_temp_index := ⟨hc0, by have := hT; omega⟩
  have hsz : sizes_ok tb s := by
    unfold sizes_ok
    rw [hrs]
    exact hlen
  refine ⟨?_, ?_, ?_⟩
  · unfold tables.volt_steps
    rw [hsize]
    exact Nat.mul_div_cancel V (Nat.succ_pos _)
  · intro snap _ acc hacc
    obtain ⟨r, -, hr⟩ := List.mem_filterMap.mp hacc
    exact pass_accesses_in_range tb s.cur_temp_index V r acc hlen hcol hr
  · obtain ⟨s1, h1⟩ := update_state_total tb s rs ts add_points hsz hcol
    obtain ⟨k1, k2, k3⟩ := update_state_keeps_ranges tb s s1 rs ts add_points hcol h1
    exact ⟨s1, h1, k2, by omega, k1.trans hrs⟩

/-- The scenario tables (`T = 2`, `V = 2`) with the snapshot of S1 and the
event of S4: the reads are rows 0 and 1 of `vc.saved_rs` and cells 1 and 4 of
`btable`, and `cur_temp_index` ends at 1. -/
theorem update_state_accesses_in_range_witness :
    loop_accesses scenario_tables scenario_state.cur_temp_index
        [⟨900, 1000⟩, ⟨1200, 2000⟩] = [(0, 1), (1, 4)] ∧
      scenario_tables.volt_steps = 2 ∧
      (∀ snap, some [(⟨900, 1000⟩ : rail_stats), ⟨1200, 2000⟩] = some snap →
        ∀ acc ∈ loop_accesses scenario_tables scenario_state.cur_temp_index snap,
          0 ≤ acc.1 ∧ acc.1 < ((2 : Nat) : Int) ∧ 0 ≤ acc.2 ∧
            acc.2 < (scenario_tables.btable_size : Int)) ∧
      ∃ s1, update_state scenario_tables scenario_state
          (some [⟨900, 1000⟩, ⟨1200, 2000⟩]) (some ⟨85, 1⟩) (-1) = some s1 ∧
        0 ≤ s1.cur_temp_index ∧
        s1.cur_temp_index ≤ (scenario_tables.temp_list_size : Int) - 1 ∧
        s1.saved_rs.length = 2 :=
  ⟨by decide,
    update_state_accesses_in_range scenario_tables scenario_state 2
      (some [⟨900, 1000⟩, ⟨1200, 2000⟩]) (some ⟨85, 1⟩) (-1)
      (by decide) (by decide) (by decide) (by decide) (by decide)⟩

end VoltCap
